import Mathlib

/-!
Verification of the kenaz vault/index core against its specification.

The Go sources are shallowly embedded: Go strings and byte slices become
`List Char` / `List Nat`, Go maps and SQLite tables become association lists,
fallible calls become `Except`, and injected statement/IO failures become
boolean oracles.  Every definition mirrors the function of the same name in
the repository (package and file are given in each doc comment).
-/

set_option autoImplicit false

namespace Kenaz

/-- Go strings are byte strings; we model them as lists of characters
(identical to the byte view on the ASCII data exercised here, and encoded
through UTF-8 where a byte-level digest is required). -/
abbrev Str := List Char

/-- Coerce a Lean string literal to the model's string type. -/
def str (s : String) : Str := s.data

/-! ## internal/checksum (checksum.go): hex-encoded SHA-256 -/

/-- 32-bit truncation, as performed by Go's `uint32` arithmetic. -/
def w32 (n : Nat) : Nat := n % 4294967296

/-- 32-bit right rotation (`bits.RotateLeft32(x, -k)` in Go's sha256). -/
def rotr (x k : Nat) : Nat :=
  w32 ((x >>> k) ||| (x <<< (32 - k)))

/-- 32-bit bitwise complement. -/
def notw (x : Nat) : Nat := 4294967295 - w32 x

/-- The SHA-256 round constants (FIPS 180-4). -/
def shaK : List Nat :=
  [1116352408, 1899447441, 3049323471, 3921009573, 961987163,
   1508970993, 2453635748, 2870763221, 3624381080, 310598401,
   607225278, 1426881987, 1925078388, 2162078206, 2614888103,
   3248222580, 3835390401, 4022224774, 264347078, 604807628,
   770255983, 1249150122, 1555081692, 1996064986, 2554220882,
   2821834349, 2952996808, 3210313671, 3336571891, 3584528711,
   113926993, 338241895, 666307205, 773529912, 1294757372,
   1396182291, 1695183700, 1986661051, 2177026350, 2456956037,
   2730485921, 2820302411, 3259730800, 3345764771, 3516065817,
   3600352804, 4094571909, 275423344, 430227734, 506948616,
   659060556, 883997877, 958139571, 1322822218, 1537002063,
   1747873779, 1955562222, 2024104815, 2227730452, 2361852424,
   2428436474, 2756734187, 3204031479, 3329325298]

/-- The SHA-256 initial hash value. -/
def shaH0 : List Nat :=
  [1779033703, 3144134277, 1013904242, 2773480762,
   1359893119, 2600822924, 528734635, 1541459225]

/-- Split the padded message into 32-bit big-endian words. -/
def bytesToWords : List Nat → List Nat
  | b0 :: b1 :: b2 :: b3 :: rest =>
      (((b0 * 256 + b1) * 256 + b2) * 256 + b3) :: bytesToWords rest
  | _ => []

/-- One SHA-256 message-schedule extension step: append the next word. -/
def shaExtendStep (w : List Nat) : List Nat :=
  let i := w.length
  let w15 := w.getD (i - 15) 0
  let w2 := w.getD (i - 2) 0
  let s0 := w32 ((rotr w15 7) ^^^ (rotr w15 18) ^^^ (w15 >>> 3))
  let s1 := w32 ((rotr w2 17) ^^^ (rotr w2 19) ^^^ (w2 >>> 10))
  w ++ [w32 (w.getD (i - 16) 0 + s0 + w.getD (i - 7) 0 + s1)]

/-- SHA-256 message-schedule extension: grow the 16 block words to 64. -/
def shaExtend (w16 : List Nat) : List Nat :=
  (List.range 48).foldl (fun w _ => shaExtendStep w) w16

/-- One SHA-256 compression round. -/
def shaRound (st : List Nat) (ki wi : Nat) : List Nat :=
  match st with
  | [a, b, c, d, e, f, g, h] =>
      let s1 := w32 ((rotr e 6) ^^^ (rotr e 11) ^^^ (rotr e 25))
      let ch := w32 ((e &&& f) ^^^ ((notw e) &&& g))
      let t1 := w32 (h + s1 + ch + ki + wi)
      let s0 := w32 ((rotr a 2) ^^^ (rotr a 13) ^^^ (rotr a 22))
      let mj := w32 ((a &&& b) ^^^ (a &&& c) ^^^ (b &&& c))
      let t2 := w32 (s0 + mj)
      [w32 (t1 + t2), a, b, c, w32 (d + t1), e, f, g]
  | st => st

/-- Process one 64-byte block against the running hash. -/
def shaBlock (hsh : List Nat) (block : List Nat) : List Nat :=
  let w := shaExtend (bytesToWords block)
  let st := (List.range 64).foldl
    (fun st i => shaRound st (shaK.getD i 0) (w.getD i 0)) hsh
  List.zipWith (fun a b => w32 (a + b)) hsh st

/-- Split a list into chunks of 64 (`fuel` bounds the recursion depth and
is instantiated with the list length, which suffices since every chunk
consumes at least one element). -/
def chunks64F (fuel : Nat) (l : List Nat) : List (List Nat) :=
  match fuel, l with
  | _, [] => []
  | 0, _ => []
  | fuel + 1, l => l.take 64 :: chunks64F fuel (l.drop 64)

/-- Split a list into chunks of 64. -/
def chunks64 (l : List Nat) : List (List Nat) := chunks64F l.length l

/-- SHA-256 padding: append 0x80, zero fill, and the 64-bit bit length. -/
def shaPad (msg : List Nat) : List Nat :=
  let len := msg.length
  let zeros := (64 - (len + 9) % 64) % 64
  let bitLen := len * 8
  msg ++ [0x80] ++ List.replicate zeros 0 ++
    [w32 (bitLen >>> 56) % 256, (bitLen >>> 48) % 256, (bitLen >>> 40) % 256,
     (bitLen >>> 32) % 256, (bitLen >>> 24) % 256, (bitLen >>> 16) % 256,
     (bitLen >>> 8) % 256, bitLen % 256]

/-- Render one hash word as four big-endian bytes. -/
def wordBytes (x : Nat) : List Nat :=
  [(x >>> 24) % 256, (x >>> 16) % 256, (x >>> 8) % 256, x % 256]

/-- `crypto/sha256.Sum256`: the 32-byte SHA-256 digest of `msg`. -/
def sha256 (msg : List Nat) : List Nat :=
  ((chunks64 (shaPad msg)).foldl shaBlock shaH0).flatMap wordBytes

/-- Lowercase hex digit for a value below 16. -/
def hexDigit (n : Nat) : Char :=
  (str "0123456789abcdef").getD n '0'

/-- `encoding/hex.EncodeToString` over a byte list. -/
def hexEncode (bs : List Nat) : Str :=
  bs.flatMap (fun b => [hexDigit (b / 16 % 16), hexDigit (b % 16)])

/-- UTF-8 encoding of a single character (Go strings store UTF-8 bytes). -/
def utf8Char (c : Char) : List Nat :=
  let n := c.toNat
  if n < 0x80 then [n]
  else if n < 0x800 then [0xc0 + n / 64, 0x80 + n % 64]
  else if n < 0x10000 then [0xe0 + n / 4096, 0x80 + n / 64 % 64, 0x80 + n % 64]
  else [0xf0 + n / 262144, 0x80 + n / 4096 % 64, 0x80 + n / 64 % 64, 0x80 + n % 64]

/-- The UTF-8 bytes of a model string (the `[]byte(s)` conversion in Go). -/
def utf8 (s : Str) : List Nat := s.flatMap utf8Char

/-- `checksum.Sum` (internal/checksum/checksum.go): hex-encoded SHA-256 of
the content bytes. -/
def checksumSum (data : List Nat) : Str := hexEncode (sha256 data)

/-- `checksum.Sum` applied to a Go string's bytes. -/
def sumStr (s : Str) : Str := checksumSum (utf8 s)

/-! ## Generic string helpers mirroring Go's bytes/strings functions -/

/-- `bytes.HasPrefix` / `strings.HasPrefix`. -/
def isPre : Str → Str → Bool
  | [], _ => true
  | _ :: _, [] => false
  | a :: p, b :: s => a = b && isPre p s

/-- `bytes.TrimLeft` with an explicit cutset. -/
def trimLeftIn (cut : List Char) : Str → Str
  | [] => []
  | c :: rest => if c ∈ cut then trimLeftIn cut rest else c :: rest

/-- `bytes.Index` / `strings.Index`: position of the first occurrence of
`pat`, or `none`. -/
def findSub (pat : Str) : Str → Option Nat
  | [] => if pat = [] then some 0 else none
  | c :: rest =>
      if isPre pat (c :: rest) then some 0
      else (findSub pat rest).map (· + 1)

/-- The ASCII whitespace set trimmed by `strings.TrimSpace` (the note data
exercised here contains no non-ASCII whitespace). -/
def isGoSpace (c : Char) : Bool :=
  c = ' ' || c = '\t' || c = '\n' || c = '\x0b' || c = '\x0c' || c = '\r'

/-- `strings.TrimSpace`. -/
def trimSpace (s : Str) : Str :=
  ((s.dropWhile isGoSpace).reverse.dropWhile isGoSpace).reverse

/-- `strings.Split` on a single separator character. -/
def splitOnChar (sep : Char) : Str → List Str
  | [] => [[]]
  | c :: rest =>
      if c = sep then [] :: splitOnChar sep rest
      else
        match splitOnChar sep rest with
        | h :: t => (c :: h) :: t
        | [] => [[c]]

/-! ## internal/parser (parser.go) -/

/-- A YAML value as produced by `yaml.Unmarshal` into `interface{}`:
strings and lists are the shapes the parser inspects; everything else is
collapsed to `other`. -/
inductive YVal where
  | str (s : Str)
  | list (items : List YVal)
  | other

/-- An unmarshalled frontmatter mapping (`map[string]interface{}`; the empty
list doubles for Go's `nil` map, which behaves identically on lookup). -/
abbrev Fm := List (Str × YVal)

/-- An abstract model of `yaml.Unmarshal` from gopkg.in/yaml.v3: `none` is a
parse error, `some fm` a successful unmarshal into a mapping. -/
abbrev Yaml := Str → Option Fm

/-- Go map lookup on the frontmatter model. -/
def lookupFm (fm : Fm) (k : Str) : Option YVal :=
  (fm.find? (fun p => p.1 = k)).map (·.2)

/-- `parser.splitFrontmatter`: separates YAML frontmatter (between leading
`---` delimiters) from the body.  Faithful to the source: the opening test is
`bytes.HasPrefix(trimmed, "---")`, the closing delimiter is the first
occurrence of `"\n---"`, and a YAML failure falls back to
(empty frontmatter, whole input). -/
def splitFrontmatter (yaml : Yaml) (data : Str) : Fm × Str :=
  let delim := str "---"
  let trimmed := trimLeftIn [ '\n', '\r' ] data
  if ¬ isPre delim trimmed then ([], data)
  else
    let rest := trimmed.drop 3
    match findSub ('\n' :: delim) rest with
    | none => ([], data)
    | some idx =>
        let yamlBlock := rest.take idx
        let afterDelim := rest.drop (idx + 1 + 3)
        let body := trimLeftIn [ '\n', '\r' ] afterDelim
        match yaml yamlBlock with
        | none => ([], data)
        | some fm => (fm, body)

/-- Fuel-indexed scanner for the non-greedy Go regexp `\[\[(.*?)\]\]`
(`.` does not match a newline): at each `[[`, the capture runs to the
first following `]]` and must be newline-free; otherwise the scan
advances one character.  Every step consumes at least one character, so
fuel equal to the string length suffices. -/
def scanLinksF : Nat → Str → List Str
  | _, [] => []
  | 0, _ => []
  | fuel + 1, '[' :: '[' :: rest =>
      (match findSub (str "]]") rest with
       | some k =>
           let cap := rest.take k
           if '\n' ∈ cap then scanLinksF fuel ('[' :: rest)
           else cap :: scanLinksF fuel (rest.drop (k + 2))
       | none => scanLinksF fuel ('[' :: rest))
  | fuel + 1, _ :: rest => scanLinksF fuel rest

/-- The wikilink scanner at adequate fuel. -/
def scanLinks (s : Str) : List Str := scanLinksF s.length s

/-- `parser.extractLinks`: wikilink targets, alias part stripped, trimmed,
empties dropped, deduplicated keeping first occurrence. -/
def extractLinks (body : Str) : List Str :=
  (scanLinks body).foldl
    (fun out raw =>
      let target :=
        match findSub (str "|") raw with
        | some i => raw.take i
        | none => raw
      let target := trimSpace target
      if target = [] then out
      else if target ∈ out then out
      else out ++ [target]) []

/-- A character allowed after the first letter of an inline tag: a letter,
digit, underscore, slash, or dash. -/
def isTagChar (c : Char) : Bool :=
  ('A' ≤ c && c ≤ 'Z') || ('a' ≤ c && c ≤ 'z') || ('0' ≤ c && c ≤ '9') ||
  c = '_' || c = '/' || c = '-'

/-- Read an inline tag token right after a `#`: an ASCII letter followed by
tag characters (greedy), or `none`. -/
def readTag : Str → Option (Str × Str)
  | [] => none
  | c :: rest =>
      if ('A' ≤ c && c ≤ 'Z') || ('a' ≤ c && c ≤ 'z') then
        some (c :: rest.takeWhile isTagChar, rest.dropWhile isTagChar)
      else none

theorem readTag_length {s t r : Str} (h : readTag s = some (t, r)) :
    r.length < s.length := by
  match s with
  | [] => simp [readTag] at h
  | c :: rest =>
      simp only [readTag] at h
      split at h
      · have hr : r = rest.dropWhile isTagChar := by
          cases h; rfl
        have := (List.dropWhile_sublist (p := isTagChar) (l := rest)).length_le
        simp only [hr, List.length_cons]
        omega
      · simp at h

/-- The RE2 whitespace class `\s` = `[\t\n\f\r ]` used by the tag regexp. -/
def isReSpace (c : Char) : Bool :=
  c = '\t' || c = '\n' || c = '\x0c' || c = '\r' || c = ' '

/-- Scanner for the Go tag regexp (whitespace-or-start, then `#`, then a
letter and a run of tag characters) in `FindAllStringSubmatch`
(leftmost, non-overlapping) order.  `atStart` is true
only at the start of the string, where `^` lets a match begin without a
preceding whitespace character. -/
def scanTagsF : Nat → Bool → Str → List Str
  | _, _, [] => []
  | 0, _, _ => []
  | fuel + 1, atStart, c :: rest =>
      if atStart && c = '#' then
        match readTag rest with
        | some (tok, r) => tok :: scanTagsF fuel false r
        | none => scanTagsF fuel false rest
      else if isReSpace c then
        match rest with
        | '#' :: rest2 =>
            (match readTag rest2 with
             | some (tok, r) => tok :: scanTagsF fuel false r
             | none => scanTagsF fuel false rest)
        | _ => scanTagsF fuel false rest
      else scanTagsF fuel false rest

/-- The tag scanner at adequate fuel (every step consumes at least one
character). -/
def scanTags (atStart : Bool) (s : Str) : List Str :=
  scanTagsF s.length atStart s

/-- `parser.extractTags`: frontmatter `tags` list items (trimmed, non-empty)
first, then inline `#tags`, deduplicated keeping first occurrence. -/
def extractTags (body : Str) (fm : Fm) : List Str :=
  let fmTags :=
    match lookupFm fm (str "tags") with
    | some (.list items) =>
        items.foldl
          (fun out item =>
            match item with
            | .str s =>
                let s := trimSpace s
                if s = [] then out
                else if s ∈ out then out
                else out ++ [s]
            | _ => out) []
    | _ => []
  (scanTags true body).foldl
    (fun out t => if t ∈ out then out else out ++ [t]) fmTags

/-- `parser.deriveTitle`: frontmatter `title` if a non-empty string, else the
first `# ` heading (after trimming), else empty. -/
def deriveTitle (fm : Fm) (body : Str) : Str :=
  let fromH1 :=
    match (splitOnChar '\n' body).find?
        (fun line => isPre (str "# ") (trimSpace line)) with
    | some line => trimSpace ((trimSpace line).drop 2)
    | none => []
  match lookupFm fm (str "title") with
  | some (.str s) => if s ≠ [] then s else fromH1
  | _ => fromH1

/-- The output of `parser.Parse`. -/
structure ParseResult where
  frontmatter : Fm
  body : Str
  links : List Str
  tags : List Str
  title : Str

/-- `parser.Parse`: frontmatter split, then link/tag/title extraction.  The
Go function's error result is always nil, so the model is total. -/
def parse (yaml : Yaml) (data : Str) : ParseResult :=
  let (fm, body) := splitFrontmatter yaml data
  { frontmatter := fm
    body := body
    links := extractLinks body
    tags := extractTags body fm
    title := deriveTitle fm body }

/-! ## internal/index: SQLite state model (index.go schema, methods of DB) -/

/-- A row of the `notes` table. -/
structure NoteRowS where
  path : Str
  title : Str
  checksum : Str
  tagsJSON : Str
  body : Str
  updatedAt : Nat
  deriving DecidableEq

/-- A row of the `links` table (`UNIQUE(source, target)`). -/
structure LinkRowS where
  source : Str
  target : Str
  kind : Str
  deriving DecidableEq

/-- A row of the `files_fts` virtual table. -/
structure FtsRowS where
  path : Str
  title : Str
  body : Str
  tags : Str
  deriving DecidableEq

/-- The three tables of the index database. -/
structure DBState where
  notes : List NoteRowS
  links : List LinkRowS
  fts : List FtsRowS
  deriving DecidableEq

/-- A freshly created database (schema applied, no rows). -/
def emptyDB : DBState := ⟨[], [], []⟩

/-- The `index.NoteRow` struct passed to `UpsertNote`. -/
structure NoteRow where
  path : Str
  title : Str
  checksum : Str
  tags : List Str
  updatedAt : Nat

/-- Join strings with a separator (`strings.Join`). -/
def joinWith (sep : Str) : List Str → Str
  | [] => []
  | [x] => x
  | x :: xs => x ++ sep ++ joinWith sep xs

/-- `encoding/json` escaping of one character inside a string literal
(Go's default HTML-escaping marshaller). -/
def jsonEscapeChar (c : Char) : Str :=
  if c = '"' then str "\\\""
  else if c = '\\' then str "\\\\"
  else if c = '\n' then str "\\n"
  else if c = '\r' then str "\\r"
  else if c = '\t' then str "\\t"
  else if c = '<' then str "\\u003c"
  else if c = '>' then str "\\u003e"
  else if c = '&' then str "\\u0026"
  else if c.toNat < 0x20 then
    str "\\u00" ++ [hexDigit (c.toNat / 16), hexDigit (c.toNat % 16)]
  else [c]

/-- A JSON string literal for `s`. -/
def jsonString (s : Str) : Str :=
  '"' :: (s.flatMap jsonEscapeChar ++ ['"'])

/-- `json.Marshal` of the tags slice.  (Go marshals a nil slice as `null`
and an empty slice as `[]`; the model identifies both with `[]`, which the
tag-filter `LIKE` pattern treats identically since neither contains a
double quote.) -/
def jsonEncodeTags (tags : List Str) : Str :=
  '[' :: (joinWith (str ",") (tags.map jsonString) ++ [']'])

/-- The statements executed by the index transactions; an oracle selects
which of them fail. -/
inductive Stmt where
  | beginTx
  | notesUpsert
  | notesDelete
  | ftsDelete
  | ftsInsert
  | linksDelete
  | linkPrepare
  | linkInsert (target : Str)
  | commitTx
  deriving DecidableEq

/-- A statement-failure oracle: `true` means the statement errors. -/
abbrev StmtOracle := Stmt → Bool

/-- The oracle under which every statement succeeds. -/
def okStmts : StmtOracle := fun _ => false

/-- Error results surfaced by the transaction methods. -/
inductive DBErr where
  | beginTx
  | upsertNote
  | fts
  | prepareLink
  | insertLink
  | commitTx
  deriving DecidableEq

/-- `INSERT INTO notes ... ON CONFLICT(path) DO UPDATE`: replace the row
with this primary key, or append a new one. -/
def upsertRowList (r : NoteRowS) (rows : List NoteRowS) : List NoteRowS :=
  if rows.any (fun q => q.path == r.path) then
    rows.map (fun q => if q.path == r.path then r else q)
  else rows ++ [r]

/-- `INSERT OR IGNORE INTO links` for each target, failing when the oracle
says so (the error aborts, as in the Go loop). -/
def insertLinks (oracle : StmtOracle) (src : Str) :
    List Str → DBState → Except DBErr DBState
  | [], db => .ok db
  | t :: ts, db =>
      if oracle (.linkInsert t) then .error .insertLink
      else
        let db' :=
          if db.links.any (fun l => l.source == src && l.target == t) then db
          else { db with links := db.links ++ [⟨src, t, str "inline"⟩] }
        insertLinks oracle src ts db'

/-- `DB.UpsertNote` (internal/index, part_029): one transaction inserting
the note row, replacing the FTS row (delete + insert, `ftsUpsert` of
part_027), and replacing the outgoing links (delete + inserts).  The
errors of the FTS delete and of the links delete are discarded by the
source (`_, _ = tx.Exec(...)`); all other statement errors abort.  On
error the transaction rolls back, which the model renders by returning no
state. -/
def upsertNoteTx (oracle : StmtOracle) (db : DBState) (n : NoteRow)
    (body : Str) (links : List Str) : Except DBErr DBState :=
  if oracle .beginTx then .error .beginTx
  else if oracle .notesUpsert then .error .upsertNote
  else
    let tagsJSON := jsonEncodeTags n.tags
    let row : NoteRowS :=
      ⟨n.path, n.title, n.checksum, tagsJSON, body, n.updatedAt⟩
    let db1 := { db with notes := upsertRowList row db.notes }
    let db2 :=
      if oracle .ftsDelete then db1
      else { db1 with fts := db1.fts.filter (fun r => ¬ r.path == n.path) }
    if oracle .ftsInsert then .error .fts
    else
      let db3 := { db2 with fts :=
        db2.fts ++ [⟨n.path, n.title, body, joinWith (str " ") n.tags⟩] }
      let db4 :=
        if oracle .linksDelete then db3
        else { db3 with links := db3.links.filter (fun l => ¬ l.source == n.path) }
      if (!links.isEmpty) && oracle .linkPrepare then .error .prepareLink
      else
        match insertLinks oracle n.path links db4 with
        | .error e => .error e
        | .ok db5 => if oracle .commitTx then .error .commitTx else .ok db5

/-- The caller-observable state after `UpsertNote`: on error the
transaction was rolled back and the database is unchanged. -/
def upsertNoteRun (oracle : StmtOracle) (db : DBState) (n : NoteRow)
    (body : Str) (links : List Str) : DBState :=
  match upsertNoteTx oracle db n body links with
  | .ok db' => db'
  | .error _ => db

/-- `DB.DeleteNote`: one transaction deleting the FTS row, the outgoing
links, and the note row; all three statement errors are discarded by the
source, so only Begin/Commit can surface an error. -/
def deleteNoteTx (oracle : StmtOracle) (db : DBState) (path : Str) :
    Except DBErr DBState :=
  if oracle .beginTx then .error .beginTx
  else
    let db1 :=
      if oracle .ftsDelete then db
      else { db with fts := db.fts.filter (fun r => ¬ r.path == path) }
    let db2 :=
      if oracle .linksDelete then db1
      else { db1 with links := db1.links.filter (fun l => ¬ l.source == path) }
    let db3 :=
      if oracle .notesDelete then db2
      else { db2 with notes := db2.notes.filter (fun r => ¬ r.path == path) }
    if oracle .commitTx then .error .commitTx else .ok db3

/-- `DB.GetChecksum` (part_029 lines 89-96): any scan error — a failed
query as well as the no-row case — is mapped to `("", nil)`; a found row
returns its checksum with a nil error. -/
def getChecksum (db : DBState) (queryFails : Bool) (path : Str) :
    Str × Option Unit :=
  if queryFails then ([], none)
  else
    match db.notes.find? (fun r => r.path == path) with
    | none => ([], none)
    | some r => (r.checksum, none)

/-- `DB.AllPaths`: every indexed note path. -/
def allPaths (db : DBState) : List Str := db.notes.map (·.path)

/-- Modelled from the spec: `DB.AllChecksums` is declared in the
`NoteIndex` interface (internal/index/index.go) and called by `Sync`, but
its implementation is not among the provided sources; §4.3 of the spec
defines it as returning the map `path → checksum` in one query. -/
def allChecksums (db : DBState) : List (Str × Str) :=
  db.notes.map (fun r => (r.path, r.checksum))

/-- Lookup in an association list (a Go `map[string]string` read with its
zero-value default). -/
def lookupD (m : List (Str × Str)) (k : Str) : Str :=
  match m.find? (fun p => p.1 == k) with
  | some p => p.2
  | none => []

/-- ASCII lowercase folding, as applied by SQLite's default `LIKE`. -/
def lowerAscii (c : Char) : Char :=
  if 'A' ≤ c && c ≤ 'Z' then Char.ofNat (c.toNat + 32) else c

/-- Fuel-indexed SQLite `LIKE` matcher (no ESCAPE clause): `%` matches
any run, `_` any single character, letters ASCII-case-insensitively.
Every recursive call shrinks the combined length of pattern and string,
so fuel exceeding that sum suffices. -/
def likeMatchF : Nat → Str → Str → Bool
  | _, [], [] => true
  | _, [], _ :: _ => false
  | 0, _, _ => false
  | fuel + 1, '%' :: p, s =>
      likeMatchF fuel p s ||
        (match s with
         | [] => false
         | _ :: s' => likeMatchF fuel ('%' :: p) s')
  | _, '_' :: _, [] => false
  | fuel + 1, '_' :: p, _ :: s => likeMatchF fuel p s
  | _, _ :: _, [] => false
  | fuel + 1, c :: p, d :: s => lowerAscii c = lowerAscii d && likeMatchF fuel p s

/-- SQLite's `LIKE` at adequate fuel. -/
def likeMatch (p s : Str) : Bool :=
  likeMatchF (p.length + s.length + 1) p s

/-- Lexicographic comparison of byte lists. -/
def lexLe : List Nat → List Nat → Bool
  | [], _ => true
  | _ :: _, [] => false
  | a :: as, b :: bs => a < b || (a = b && lexLe as bs)

/-- Bytewise (BINARY collation) comparison of two strings as UTF-8. -/
def bytesLe (a b : Str) : Bool :=
  lexLe (utf8 a) (utf8 b)

/-- Stable insertion into a sorted list. -/
def insertSorted {α : Type} (le : α → α → Bool) (x : α) : List α → List α
  | [] => [x]
  | y :: ys => if le x y then x :: y :: ys else y :: insertSorted le x ys

/-- Sort by the given comparator (a model of the SQL `ORDER BY`; SQLite
does not fix the relative order of ties). -/
def sortRows {α : Type} (le : α → α → Bool) (l : List α) : List α :=
  l.foldr (insertSorted le) []

/-- The `ORDER BY <sort> DESC` comparator built by `ListNotes`. -/
def rowKeyLe (sort : Str) (a b : NoteRowS) : Bool :=
  if sort = str "title" then bytesLe b.title a.title
  else if sort = str "path" then bytesLe b.path a.path
  else decide (b.updatedAt ≤ a.updatedAt)

/-- `DB.ListNotes` (part_029 lines 134-184): default limit 50, whitelisted
sort column, and — when `tag` is non-empty — a `tags LIKE '%"tag"%'`
filter on the serialized tags column; returns the page and the total
count over the same WHERE clause.  (A negative OFFSET is treated as 0 by
SQLite, matching `Int.toNat`.) -/
def listNotes (db : DBState) (limit offset : Int) (tag sort : Str) :
    List NoteRowS × Nat :=
  let limit := if limit ≤ 0 then (50 : Int) else limit
  let sort := if sort = [] then str "updated_at" else sort
  let sort :=
    if sort = str "updated_at" || sort = str "title" || sort = str "path"
    then sort else str "updated_at"
  let filtered :=
    if tag = [] then db.notes
    else db.notes.filter
      (fun r => likeMatch ('%' :: '"' :: (tag ++ ['"', '%'])) r.tagsJSON)
  let total := filtered.length
  let page := ((sortRows (rowKeyLe sort) filtered).drop offset.toNat).take
    limit.toNat
  (page, total)

/-- `DB.Backlinks`: all sources of link rows with the given target. -/
def backlinks (db : DBState) (target : Str) : List Str :=
  (db.links.filter (fun l => l.target == target)).map (·.source)

/-! ## internal/storage (fs.go): path validation and the FS provider -/

/-- One pass of `filepath.Clean`'s element processing: `acc` is the output
stack in reverse order.  Empty and `.` elements vanish; `..` pops a
preceding non-`..` element, survives at the head of a relative path, and
vanishes at the root of an absolute one. -/
def cleanStack (rooted : Bool) : List Str → List Str → List Str
  | [], acc => acc
  | e :: es, acc =>
      if e = [] || e = str "." then cleanStack rooted es acc
      else if e = str ".." then
        match acc with
        | [] =>
            if rooted then cleanStack rooted es []
            else cleanStack rooted es [str ".."]
        | a :: rest =>
            if a = str ".." then cleanStack rooted es (e :: a :: rest)
            else cleanStack rooted es rest
      else cleanStack rooted es (e :: acc)

/-- Render cleaned components back into a path. -/
def renderPath (rooted : Bool) (parts : List Str) : Str :=
  if rooted then '/' :: joinWith (str "/") parts
  else if parts = [] then str "." else joinWith (str "/") parts

/-- `filepath.IsAbs` on the target (slash-separated) platform. -/
def isAbsPath (s : Str) : Bool := isPre (str "/") s

/-- `filepath.Clean` (slash separator), expressed by its documented
element rewriting: collapse separators, drop `.`, resolve `..`. -/
def clean (s : Str) : Str :=
  if s = [] then str "."
  else renderPath (isAbsPath s)
    ((cleanStack (isAbsPath s) (splitOnChar '/' s) []).reverse)

/-- `filepath.Join` of two elements: concatenate the non-empty ones with a
separator, then `Clean` (empty result when both are empty). -/
def joinPath (a b : Str) : Str :=
  if a = [] && b = [] then []
  else if a = [] then clean b
  else if b = [] then clean a
  else clean (a ++ '/' :: b)

/-- `filepath.Dir`: everything up to the final separator, cleaned. -/
def dirOf (s : Str) : Str :=
  clean ((s.reverse.dropWhile (fun c => ¬ c = '/')).reverse)

/-- An absolute path assembled from components: `/c1/c2/.../cn`. -/
def renderAbs (parts : List Str) : Str :=
  '/' :: joinWith (str "/") parts

/-- A well-formed path component: non-empty, not `.` or `..`, and free of
separators — the shape of every real directory name making up a vault
root. -/
def goodComp (c : Str) : Prop :=
  ¬ c = [] ∧ ¬ c = str "." ∧ ¬ c = str ".." ∧ ¬ '/' ∈ c

instance (c : Str) : Decidable (goodComp c) := by
  unfold goodComp
  infer_instance

/-- Path-validation failures of `FS.safePath`. -/
inductive PathErr where
  | absolute
  | escape
  deriving DecidableEq

/-- `FS.safePath` (internal/storage/fs.go lines 39-57): clean the relative
input, reject absolute paths, join under the root, and reject any result
that is neither the root itself nor strictly beneath `root + "/"`.  The
root stored by `NewFS` is already absolute and clean, so the
`filepath.Abs` call on the joined path is the identity and is elided. -/
def safePath (root rel : Str) : Except PathErr Str :=
  if rel = [] then .ok root
  else
    let cleaned := clean rel
    if isAbsPath cleaned then .error .absolute
    else
      let joined := joinPath root cleaned
      if isPre (root ++ ['/']) joined || joined == root then .ok joined
      else .error .escape

/-- The on-disk state visible to the `FS` provider: absolute path →
content. -/
structure FileSys where
  files : List (Str × Str)
  deriving DecidableEq

/-- Filesystem side effects performed by the `FS` operations; an empty
trace means no file anywhere was created, read, or removed. -/
inductive FsEffect where
  | readFile (abs : Str)
  | mkdirAll (dir : Str)
  | writeTempIn (dir : Str)
  | renameOver (src dst : Str)
  | removeFile (abs : Str)
  deriving DecidableEq

/-- Replace the entry with this key, or append a new one (the update step
shared by the file-map models). -/
def upsertAssoc {β : Type} (l : List (Str × β)) (a : Str) (v : β) :
    List (Str × β) :=
  if l.any (fun q => q.1 == a) then
    l.map (fun q => if q.1 == a then (a, v) else q)
  else l ++ [(a, v)]

/-- Look up an absolute path. -/
def fsLookup (fs : FileSys) (abs : Str) : Option Str :=
  (fs.files.find? (fun q => q.1 == abs)).map (·.2)

/-- Replace or add a file. -/
def fsSet (fs : FileSys) (abs content : Str) : FileSys :=
  ⟨upsertAssoc fs.files abs content⟩

/-- Remove a file. -/
def fsErase (fs : FileSys) (abs : Str) : FileSys :=
  ⟨fs.files.filter (fun q => ¬ q.1 == abs)⟩

/-- `FS.Read`: validate, then `os.ReadFile` (`none` = missing file). -/
def fsRead (root : Str) (fs : FileSys) (rel : Str) :
    Except PathErr (Option Str) × List FsEffect :=
  match safePath root rel with
  | .error e => (.error e, [])
  | .ok abs => (.ok (fsLookup fs abs), [.readFile abs])

/-- `FS.Write`: validate, create parent directories, then write a temp
file in the target's directory and rename it over the target. -/
def fsWrite (root : Str) (fs : FileSys) (rel content : Str) :
    Except PathErr Unit × FileSys × List FsEffect :=
  match safePath root rel with
  | .error e => (.error e, fs, [])
  | .ok abs =>
      (.ok (), fsSet fs abs content,
        [.mkdirAll (dirOf abs), .writeTempIn (dirOf abs),
         .renameOver (dirOf abs) abs])

/-- `FS.Delete`: validate, then `os.Remove` (`false` = the file was
missing and the remove errored). -/
def fsDelete (root : Str) (fs : FileSys) (rel : Str) :
    Except PathErr Bool × FileSys × List FsEffect :=
  match safePath root rel with
  | .error e => (.error e, fs, [])
  | .ok abs =>
      match fsLookup fs abs with
      | none => (.ok false, fs, [.removeFile abs])
      | some _ => (.ok true, fsErase fs abs, [.removeFile abs])

/-- Errors of `FS.Move`: a validation failure on either argument, or a
failed `os.Rename`. -/
inductive MoveErr where
  | path (e : PathErr)
  | renameFailed
  deriving DecidableEq

/-- `FS.Move` (fs.go lines 163-180): validate both paths, create the
destination's parent directories, then `os.Rename(absOld, absNew)`.
The rename is modelled from POSIX rename(2), which `os.Rename` wraps on
the target platform: it fails only when the source is missing and
silently replaces an existing destination. -/
def fsMove (root : Str) (fs : FileSys) (oldRel newRel : Str) :
    Except MoveErr Unit × FileSys × List FsEffect :=
  match safePath root oldRel with
  | .error e => (.error (.path e), fs, [])
  | .ok absOld =>
      match safePath root newRel with
      | .error e => (.error (.path e), fs, [])
      | .ok absNew =>
          match fsLookup fs absOld with
          | none => (.error .renameFailed, fs, [.mkdirAll (dirOf absNew)])
          | some content =>
              (.ok (), fsSet (fsErase fs absOld) absNew content,
                [.mkdirAll (dirOf absNew), .renameOver absOld absNew])

/-! ## The storage.Provider interface as seen by the service, sync and
watcher layers (vault-relative paths; the vault's `.md` files) -/

/-- A vault file: content and filesystem modification time. -/
structure FileEntry where
  content : Str
  mtime : Nat
  deriving DecidableEq

/-- A `storage.Provider`: the vault's `.md` files keyed by relative path,
with injectable read and write I/O failures. -/
structure Provider where
  files : List (Str × FileEntry)
  failReads : List Str
  failWrites : List Str
  deriving DecidableEq

/-- Read errors surfaced by `Provider.Read`: the `os.ErrNotExist` case the
service inspects with `errors.Is`, or any other I/O error. -/
inductive ReadErr where
  | notExist
  | io
  deriving DecidableEq

/-- `Provider.Read`. -/
def provRead (p : Provider) (path : Str) : Except ReadErr Str :=
  if path ∈ p.failReads then .error .io
  else
    match p.files.find? (fun q => q.1 == path) with
    | some q => .ok q.2.content
    | none => .error .notExist

/-- `models.NoteMetadata` as returned by `Provider.List`. -/
structure NoteMetadata where
  path : Str
  checksum : Str
  updatedAt : Nat
  deriving DecidableEq

/-- `Provider.List("")`: metadata (path, sha256 checksum, mtime) for every
`.md` file under the root. -/
def provList (p : Provider) : List NoteMetadata :=
  p.files.map (fun q => ⟨q.1, sumStr q.2.content, q.2.mtime⟩)

/-- `Provider.Write`: atomic write of new content (the new mtime is the
write time); on failure the previous bytes stay intact. -/
def provWrite (p : Provider) (path content : Str) (now : Nat) :
    Except Unit Provider :=
  if path ∈ p.failWrites then .error ()
  else .ok { p with files := upsertAssoc p.files path ⟨content, now⟩ }

/-- `Provider.Delete`. -/
def provDelete (p : Provider) (path : Str) : Except ReadErr Provider :=
  if p.files.any (fun q => q.1 == path) then
    .ok { p with files := p.files.filter (fun q => ¬ q.1 == path) }
  else .error .notExist

/-! ## internal/index Sync (part_029 lines 469-529) -/

/-- `index.indexFile`: parse the data, checksum it, and upsert.  The
`NoteRow` literal sets no `UpdatedAt`, so the row carries Go's zero
time, modelled as 0. -/
def syncIndexFile (yaml : Yaml) (oracle : StmtOracle) (db : DBState)
    (path data : Str) : Except DBErr DBState :=
  let res := parse yaml data
  upsertNoteTx oracle db
    ⟨path, res.title, sumStr data, res.tags, 0⟩ res.body res.links

/-- One iteration of `Sync`'s upsert loop: skip an unchanged file, read
and index a new or changed one, log and continue on a read or index
error. -/
def syncStep (yaml : Yaml) (oracle : StmtOracle) (store : Provider)
    (checksums : List (Str × Str)) (acc : DBState) (m : NoteMetadata) :
    DBState :=
  if lookupD checksums m.path == m.checksum then acc
  else
    match provRead store m.path with
    | .error _ => acc
    | .ok data =>
        match syncIndexFile yaml oracle acc m.path data with
        | .ok acc' => acc'
        | .error _ => acc

/-- One iteration of `Sync`'s stale-removal loop: delete an indexed path
that is no longer on disk, logging and continuing on error. -/
def syncDeleteStep (oracle : StmtOracle) (metas : List NoteMetadata)
    (acc : DBState) (p : Str × Str) : DBState :=
  if metas.any (fun m => m.path == p.1) then acc
  else
    match deleteNoteTx oracle acc p.1 with
    | .ok acc' => acc'
    | .error _ => acc

/-- `index.Sync`: list the vault, fetch all checksums in one query, upsert
every new or changed file (logging and continuing on read or index
errors), then delete index entries whose path is no longer on disk.
Iteration over the checksum map follows the association order; the stale
deletions are of distinct paths, so any Go map order yields this state. -/
def sync (yaml : Yaml) (oracle : StmtOracle) (store : Provider)
    (db : DBState) : DBState :=
  let metas := provList store
  let checksums := allChecksums db
  checksums.foldl (syncDeleteStep oracle metas)
    (metas.foldl (syncStep yaml oracle store checksums) db)

/-! ## internal/noteservice (part_033) -/

/-- The service error taxonomy: the `apperr` sentinels plus wrapped
low-level causes. -/
inductive AppErr where
  | notFound
  | alreadyExists
  | conflict
  | readFailed
  | writeFailed
  | dbErr (e : DBErr)
  deriving DecidableEq

/-- `noteservice.NoteDetail`. -/
structure NoteDetail where
  path : Str
  title : Str
  content : Str
  checksum : Str
  tags : List Str
  frontmatter : Fm
  backlinks : List Str
  updatedAt : Nat

/-- `Service.buildNoteDetail` (part_033 lines 155-174): parse the raw
data, query backlinks, and fill the projection — with
`UpdatedAt: time.Now()`, the wall-clock time of the call. -/
def buildNoteDetail (yaml : Yaml) (db : DBState) (now : Nat)
    (path data : Str) : NoteDetail :=
  let res := parse yaml data
  { path := path
    title := res.title
    content := data
    checksum := sumStr data
    tags := res.tags
    frontmatter := res.frontmatter
    backlinks := backlinks db path
    updatedAt := now }

/-- `Service.GetNote` (part_033 lines 49-58): read from storage, translate
a missing file to `ErrNotFound`, and build the detail projection. -/
def svcGetNote (yaml : Yaml) (db : DBState) (now : Nat) (store : Provider)
    (path : Str) : Except AppErr NoteDetail :=
  match provRead store path with
  | .error .notExist => .error .notFound
  | .error .io => .error .readFailed
  | .ok data => .ok (buildNoteDetail yaml db now path data)

/-- `Service.IndexFile`: parse and upsert with `UpdatedAt: time.Now()`. -/
def svcIndexFile (yaml : Yaml) (oracle : StmtOracle) (now : Nat)
    (db : DBState) (path data : Str) : Except AppErr DBState :=
  let res := parse yaml data
  match upsertNoteTx oracle db
      ⟨path, res.title, sumStr data, res.tags, now⟩ res.body res.links with
  | .error e => .error (.dbErr e)
  | .ok db' => .ok db'

/-- `Service.UpdateNote` (part_033 lines 75-93): read the current bytes,
enforce the optimistic `ifMatch` check against their checksum, then
write, re-index, and return the projection.  The provider and database
are threaded through so that the state after a failed call is explicit. -/
def svcUpdateNote (yaml : Yaml) (oracle : StmtOracle) (now : Nat)
    (store : Provider) (db : DBState) (path content ifMatch : Str) :
    Except AppErr NoteDetail × Provider × DBState :=
  match provRead store path with
  | .error .notExist => (.error .notFound, store, db)
  | .error .io => (.error .readFailed, store, db)
  | .ok existing =>
      if ifMatch ≠ [] ∧ ifMatch ≠ sumStr existing then
        (.error .conflict, store, db)
      else
        match provWrite store path content now with
        | .error _ => (.error .writeFailed, store, db)
        | .ok store' =>
            match svcIndexFile yaml oracle now db path content with
            | .error e => (.error e, store', db)
            | .ok db' =>
                (.ok (buildNoteDetail yaml db' now path content), store', db')

/-! ## internal/index Watch (part_031): the Create/Write `.md` handler -/

/-- The observable outcome of one watcher Create/Write event: the database
afterwards, the callback events fired, how many `store.Read` attempts were
made, and how many warnings were logged. -/
structure WatchStep where
  db : DBState
  events : List (Str × Str)
  readsAttempted : Nat
  warnings : Nat

/-- The Create/Write branch of `index.Watch` (part_031 lines 99-116) for a
`.md` path: a single `store.Read`; on failure the error is logged and the
event is skipped — there is no second attempt.  `reads n` is what the
n-th read attempt would return. -/
def watchMdWrite (yaml : Yaml) (oracle : StmtOracle)
    (reads : Nat → Except ReadErr Str) (db : DBState) (rel : Str)
    (isCreate : Bool) : WatchStep :=
  match reads 0 with
  | .error _ => ⟨db, [], 1, 1⟩
  | .ok data =>
      match syncIndexFile yaml oracle db rel data with
      | .error _ => ⟨db, [], 1, 1⟩
      | .ok db' =>
          ⟨db', [((if isCreate then str "created" else str "updated"), rel)],
            1, 0⟩

/-! ## Views and concrete fixtures used by the theorems -/

/-- The notes-table view observed through a single-row checksum lookup. -/
def csLookup (db : DBState) (p : Str) : Option Str :=
  (db.notes.find? (fun r => r.path == p)).map (·.checksum)

/-- The map produced by walking the vault and checksumming each `.md`. -/
def diskCs (store : Provider) (p : Str) : Option Str :=
  (store.files.find? (fun q => q.1 == p)).map (fun q => sumStr q.2.content)

/-- Deleting a single row from the `notes` table. -/
def eraseRow (db : DBState) (p : Str) : DBState :=
  { db with notes := db.notes.filter (fun r => ¬ r.path == p) }

/-- The oracle failing exactly the transaction commit. -/
def commitFails : StmtOracle := fun s => s == Stmt.commitTx

/-- A vault with one note `n.md` holding bytes `v2` (mtime 0). -/
def c5Store : Provider := ⟨[(str "n.md", ⟨str "v2", 0⟩)], [], []⟩

/-- A vault with one note `n.md` holding bytes `x`, modified at time 5. -/
def c6Store : Provider := ⟨[(str "n.md", ⟨str "x", 5⟩)], [], []⟩

/-- A vault root `/v` holding `old.md` (content `A`) and `new.md`
(content `B`). -/
def c7FS : FileSys :=
  ⟨[(str "/v/old.md", str "A"), (str "/v/new.md", str "B")]⟩

/-- A read oracle whose first attempt fails with an I/O error and whose
second attempt would succeed. -/
def c9Reads : Nat → Except ReadErr Str :=
  fun a => if a = 0 then .error .io else .ok (str "data")

/-- A concrete stand-in for `yaml.Unmarshal` (gopkg.in/yaml.v3) on the
inputs exercised here: a document consisting only of whitespace is the
empty (null) YAML document and unmarshals into a nil map with no error;
everything else is treated as a parse failure. -/
def yamlNullWs : Yaml := fun s =>
  if s.all isGoSpace then some [] else none

/-- A one-file vault used to instantiate the Sync convergence theorem. -/
def c3Store : Provider := ⟨[(str "a.md", ⟨str "x", 1⟩)], [], []⟩

/-- The note row used to exhibit the tag-filter false positive: its single
tag is `foo"bar`. -/
def c1Row : NoteRow :=
  ⟨str "a.md", str "A", str "c", [str "foo\"bar"], 1⟩

/-- The index state after upserting that one note. -/
def c1DB : DBState := upsertNoteRun okStmts emptyDB c1Row [] []

/-- The statement oracle failing exactly the links `DELETE`. -/
def linksDeleteFails : StmtOracle := fun s => s == Stmt.linksDelete

/-- A database holding one pre-existing link out of `a.md`. -/
def c2DB : DBState :=
  ⟨[], [⟨str "a.md", str "old", str "inline"⟩], []⟩

/-- The row upserted in the C2 counterexample. -/
def c2Row : NoteRow := ⟨str "a.md", str "T", str "c1", [], 7⟩

/-- C10: `GetChecksum` always returns a nil error, and any failed lookup —
no row for the path, or a failed query — yields the empty string. -/
theorem C10_getChecksum_never_errors (db : DBState) (qf : Bool) (path : Str) :
    (getChecksum db qf path).2 = none ∧
    ((db.notes.find? (fun r => r.path == path) = none ∨ qf = true) →
      (getChecksum db qf path).1 = []) := by
  unfold getChecksum
  rcases qf with _ | _
  · simp only [Bool.false_eq_true, if_false]
    constructor
    · rcases h : db.notes.find? (fun r => r.path == path) with _ | r <;> simp [h]
    · intro hc
      rcases hc with hc | hc
      · simp [hc]
      · exact absurd hc (by simp)
  · simp

theorem C10_getChecksum_never_errors_witness :
    (getChecksum emptyDB false (str "a.md")).2 = none ∧
      (getChecksum emptyDB false (str "a.md")).1 = [] := by
  have h := C10_getChecksum_never_errors emptyDB false (str "a.md")
  exact ⟨h.1, h.2 (Or.inl (by decide))⟩

/-- C1: the tag filter is the substring predicate `tags LIKE '%"tag"%'` on
the serialized JSON, so a note whose only tag is `foo"bar` (serialized as
`["foo\"bar"]`, which contains `"bar"` as a substring) is returned by
`ListNotes` with tag filter `bar`, although `bar` is not an element of
its tags list (byte-equal after whitespace trim). -/
theorem C1_tag_filter_false_positive :
    ((listNotes c1DB 50 0 (str "bar") []).1.map (·.path) = [str "a.md"]) ∧
    ((listNotes c1DB 50 0 (str "bar") []).2 = 1) ∧
    ¬ (str "bar") ∈ (c1Row.tags.map trimSpace) := by
  refine ⟨by decide, by decide, by decide⟩

/-- C2 counterexample: when the `DELETE FROM links WHERE source = ?`
statement fails, `UpsertNote` still commits and returns a nil error
(its result is discarded by `_, _ = tx.Exec(...)`), and the stale link
survives — the claim that every statement error aborts with a non-nil
error and an unchanged database is false at this input. -/
theorem C2_counterexample :
    linksDeleteFails .linksDelete = true ∧
    upsertNoteTx linksDeleteFails c2DB c2Row (str "b") [] =
      .ok ⟨[⟨str "a.md", str "T", str "c1", str "[]", str "b", 7⟩],
           [⟨str "a.md", str "old", str "inline"⟩],
           [⟨str "a.md", str "T", str "b", []⟩]⟩ ∧
    upsertNoteRun linksDeleteFails c2DB c2Row (str "b") [] ≠ c2DB := by
  refine ⟨by decide, by rfl, by decide⟩

/-- `insertLinks` errors exactly when the oracle fails some link insert. -/
theorem insertLinks_error_iff (oracle : StmtOracle) (src : Str) :
    ∀ (ts : List Str) (db : DBState),
      (∃ e, insertLinks oracle src ts db = .error e) ↔
        ∃ t ∈ ts, oracle (.linkInsert t) = true := by
  intro ts
  induction ts with
  | nil => intro db; simp [insertLinks]
  | cons t ts ih =>
      intro db
      by_cases h : oracle (.linkInsert t) = true
      · simp [insertLinks, h]
      · simp only [insertLinks, h, if_false, Bool.false_eq_true]
        rw [ih]
        simp [h]

/-- A successful `insertLinks` run means no link insert failed. -/
theorem insertLinks_ok_no_fail (oracle : StmtOracle) (src : Str) :
    ∀ (ts : List Str) (db db' : DBState),
      insertLinks oracle src ts db = .ok db' →
      ∀ t ∈ ts, oracle (.linkInsert t) = false := by
  intro ts
  induction ts with
  | nil => intro db db' _ t ht; exact absurd ht (List.not_mem_nil t)
  | cons u ts ih =>
      intro db db' h t ht
      rcases hu : oracle (.linkInsert u) with _ | _
      · rcases List.mem_cons.mp ht with rfl | ht'
        · exact hu
        · unfold insertLinks at h
          rw [hu] at h
          simp only [Bool.false_eq_true, if_false] at h
          exact ih _ db' h t ht'
      · unfold insertLinks at h
        rw [hu] at h
        simp at h

/-- C2 (amended): `UpsertNote` returns an error iff the begin, the notes
upsert, the FTS insert, the link-insert prepare (with a non-empty link
list), one of the link inserts, or the commit fails; the failures of the
FTS delete and of the links delete are silently swallowed.  On every
error the transaction rolls back and the caller-visible state is the
original database. -/
theorem C2_upsertNote_error_iff (oracle : StmtOracle) (db : DBState)
    (n : NoteRow) (body : Str) (links : List Str) :
    ((∃ e, upsertNoteTx oracle db n body links = .error e) ↔
      (oracle .beginTx = true ∨ oracle .notesUpsert = true ∨
       oracle .ftsInsert = true ∨
       (links ≠ [] ∧ oracle .linkPrepare = true) ∨
       (∃ t ∈ links, oracle (.linkInsert t) = true) ∨
       oracle .commitTx = true)) ∧
    ((∃ e, upsertNoteTx oracle db n body links = .error e) →
      upsertNoteRun oracle db n body links = db) := by
  constructor
  · unfold upsertNoteTx
    cases hb1 : oracle Stmt.beginTx
    case true => simp [hb1]
    case false =>
    cases hb2 : oracle Stmt.notesUpsert
    case true => simp [hb2]
    case false =>
    cases hb3 : oracle Stmt.ftsInsert
    case true => simp [hb3]
    case false =>
    simp only [hb1, hb2, hb3, Bool.false_eq_true, if_false, false_or]
    rcases links with _ | ⟨t, ts⟩
    · simp only [List.isEmpty_nil, Bool.not_true, Bool.false_and,
        Bool.false_eq_true, if_false, insertLinks, ne_eq,
        not_true_eq_false, false_and, List.not_mem_nil, false_or,
        exists_eq_left]
      cases hb6 : oracle Stmt.commitTx <;> simp [hb6]
    · cases hbp : oracle Stmt.linkPrepare
      case true =>
        simp [hbp]
      case false =>
      simp only [hbp, Bool.and_false, Bool.false_eq_true, if_false, ne_eq,
        reduceCtorEq, not_false_eq_true, true_and, false_and, false_or]
      rcases hins : insertLinks oracle n.path (t :: ts) _ with e | db5
      · have hex : ∃ u ∈ t :: ts, oracle (.linkInsert u) = true := by
          rw [← insertLinks_error_iff]
          exact ⟨e, hins⟩
        simp only [hins]
        simp
        rcases hex with ⟨u, hu, hf⟩
        rcases List.mem_cons.mp hu with rfl | h'
        · exact Or.inl (Or.inl hf)
        · exact Or.inl (Or.inr ⟨u, h', hf⟩)
      · have hok := insertLinks_ok_no_fail oracle n.path (t :: ts) _ db5 hins
        cases hb6 : oracle Stmt.commitTx
        case true => simp [hins, hb6]
        case false =>
          simp [hins, hb6]
          exact ⟨hok t (List.mem_cons_self t ts),
            fun x hx => hok x (List.mem_cons_of_mem t hx)⟩
  · intro ⟨e, he⟩
    unfold upsertNoteRun
    rw [he]

theorem C2_upsertNote_error_iff_witness :
    (∃ e, upsertNoteTx commitFails emptyDB c2Row [] [] = .error e) ∧
    upsertNoteRun commitFails emptyDB c2Row [] [] = emptyDB := by
  have h := C2_upsertNote_error_iff commitFails emptyDB c2Row [] []
  have herr : ∃ e, upsertNoteTx commitFails emptyDB c2Row [] [] = .error e :=
    h.1.mpr (Or.inr (Or.inr (Or.inr (Or.inr (Or.inr (by decide))))))
  exact ⟨herr, h.2 herr⟩

/-! ### Association-map lookup lemmas -/

theorem find?_upsertAssoc_self {β : Type} (l : List (Str × β)) (a : Str)
    (v : β) : (upsertAssoc l a v).find? (fun q => q.1 == a) = some (a, v) := by
  unfold upsertAssoc
  by_cases h : l.any (fun q => q.1 == a) = true
  · rw [if_pos h]
    induction l with
    | nil => simp at h
    | cons q t ih =>
        rcases hq : (q.1 == a) with _ | _
        · have ht : t.any (fun q => q.1 == a) = true := by
            simp only [List.any_cons, hq, Bool.false_or] at h
            exact h
          simp only [List.map_cons, hq, Bool.false_eq_true, if_false,
            List.find?_cons, hq]
          exact ih ht
        · simp only [List.map_cons, hq, if_true, List.find?_cons,
            beq_self_eq_true]
  · rw [if_neg h]
    induction l with
    | nil => simp [List.find?]
    | cons q t ih =>
        have hq : (q.1 == a) = false := by
          rcases hqq : (q.1 == a) with _ | _
          · rfl
          · exact absurd (by simp [List.any_cons, hqq]) h
        have ht : ¬ t.any (fun q => q.1 == a) = true := by
          intro htt
          exact h (by simp [List.any_cons, htt])
        simp only [List.cons_append, List.find?_cons, hq]
        exact ih ht

theorem find?_map_update_ne {β : Type} (t : List (Str × β)) (a b : Str)
    (v : β) (hne : ¬ b = a) :
    (t.map (fun q => if q.1 == a then (a, v) else q)).find?
        (fun q => q.1 == b) =
      t.find? (fun q => q.1 == b) := by
  induction t with
  | nil => rfl
  | cons q t ih =>
      rcases hq : (q.1 == a) with _ | _
      · simp only [List.map_cons, hq, Bool.false_eq_true, if_false,
          List.find?_cons]
        rcases hqb : (q.1 == b) with _ | _
        · exact ih
        · rfl
      · have hab : ((a, v).1 == b) = false := by
          rcases hx : ((a, v).1 == b) with _ | _
          · rfl
          · exact absurd (eq_of_beq hx) (fun hh => hne hh.symm)
        have hqb : (q.1 == b) = false := by
          rcases hx : (q.1 == b) with _ | _
          · rfl
          · exact absurd ((eq_of_beq hq).symm.trans (eq_of_beq hx))
              (fun hh => hne hh.symm)
        simp only [List.map_cons, hq, if_true, List.find?_cons, hab, hqb]
        exact ih

theorem find?_append_single_ne {β : Type} (t : List (Str × β)) (a b : Str)
    (v : β) (hne : ¬ b = a) :
    (t ++ [(a, v)]).find? (fun q => q.1 == b) =
      t.find? (fun q => q.1 == b) := by
  induction t with
  | nil =>
      have hab : ((a, v).1 == b) = false := by
        rcases hx : ((a, v).1 == b) with _ | _
        · rfl
        · exact absurd (eq_of_beq hx) (fun hh => hne hh.symm)
      simp [List.find?, hab]
  | cons q t ih =>
      simp only [List.cons_append, List.find?_cons]
      rcases hqb : (q.1 == b) with _ | _
      · exact ih
      · rfl

theorem find?_upsertAssoc_ne {β : Type} (l : List (Str × β)) (a b : Str)
    (v : β) (hne : ¬ b = a) :
    (upsertAssoc l a v).find? (fun q => q.1 == b) =
      l.find? (fun q => q.1 == b) := by
  unfold upsertAssoc
  by_cases h : l.any (fun q => q.1 == a) = true
  · rw [if_pos h]
    exact find?_map_update_ne l a b v hne
  · rw [if_neg h]
    exact find?_append_single_ne l a b v hne

/-- No entry with the key survives filtering that key away. -/
theorem find?_filter_not_key {β : Type} (l : List (Str × β)) (a : Str) :
    (l.filter (fun q => ¬ q.1 == a)).find? (fun q => q.1 == a) = none := by
  induction l with
  | nil => rfl
  | cons q t ih =>
      rcases hq : (q.1 == a) with _ | _
      · simp only [List.filter_cons, hq]
        simp only [Bool.false_eq_true, not_false_eq_true, decide_True,
          if_true, List.find?_cons, hq]
        exact ih
      · simp only [List.filter_cons, hq]
        simp only [not_true_eq_false, decide_False, Bool.false_eq_true,
          if_false]
        exact ih

/-- A successful `provRead` means the path is not in the injected read
failures. -/
theorem provRead_ok_no_failRead (store : Provider) (path data : Str)
    (h : provRead store path = .ok data) : ¬ path ∈ store.failReads := by
  intro hmem
  unfold provRead at h
  rw [if_pos hmem] at h
  exact absurd h (by simp)

/-- Reading back a successful write returns the written bytes. -/
theorem provWrite_read_back (store store' : Provider) (path content : Str)
    (now : Nat) (hw : provWrite store path content now = .ok store')
    (hr : ¬ path ∈ store.failReads) :
    provRead store' path = .ok content := by
  unfold provWrite at hw
  by_cases hf : path ∈ store.failWrites
  · rw [if_pos hf] at hw
    exact absurd hw (by simp)
  · rw [if_neg hf] at hw
    cases hw
    simp [provRead, hr, find?_upsertAssoc_self]

/-- `insertLinks` cannot fail under the all-success oracle. -/
theorem insertLinks_okStmts (src : Str) :
    ∀ (ts : List Str) (db : DBState),
      ∃ db', insertLinks okStmts src ts db = .ok db' := by
  intro ts
  induction ts with
  | nil => intro db; exact ⟨db, rfl⟩
  | cons t ts ih =>
      intro db
      unfold insertLinks
      simp only [okStmts, Bool.false_eq_true, if_false]
      exact ih _

/-- `UpsertNote` cannot fail under the all-success oracle. -/
theorem upsertNoteTx_okStmts (db : DBState) (n : NoteRow) (body : Str)
    (links : List Str) :
    ∃ db', upsertNoteTx okStmts db n body links = .ok db' := by
  unfold upsertNoteTx
  simp only [okStmts, Bool.false_eq_true, if_false, Bool.and_false]
  obtain ⟨db', h⟩ := insertLinks_okStmts n.path links _
  rw [h]
  exact ⟨db', rfl⟩

/-- C5: with current bytes `e` at `path`, a non-empty `ifMatch` different
from `sha256-hex(e)` makes `UpdateNote` fail with `Conflict`, leaving the
vault file and the index unchanged; when `ifMatch` equals the checksum
(and the write and index statements succeed), the update succeeds and the
new bytes are on disk. -/
theorem C5_updateNote_ifMatch (yaml : Yaml) (oracle : StmtOracle) (now : Nat)
    (store : Provider) (db : DBState) (path content ifMatch e : Str)
    (hread : provRead store path = .ok e) :
    (ifMatch ≠ [] → ifMatch ≠ sumStr e →
      svcUpdateNote yaml oracle now store db path content ifMatch =
        (.error .conflict, store, db)) ∧
    (ifMatch = sumStr e → oracle = okStmts → ¬ path ∈ store.failWrites →
      (∃ d, (svcUpdateNote yaml oracle now store db path content ifMatch).1 =
        .ok d) ∧
      provRead
        (svcUpdateNote yaml oracle now store db path content ifMatch).2.1
        path = .ok content) := by
  constructor
  · intro h1 h2
    have hc : ifMatch ≠ [] ∧ ifMatch ≠ sumStr e := ⟨h1, h2⟩
    simp [svcUpdateNote, hread, hc]
  · intro hm ho hw
    subst ho
    have hcond : ¬ (ifMatch ≠ [] ∧ ifMatch ≠ sumStr e) := by
      intro ⟨_, h2⟩
      exact h2 hm
    rcases hwr : provWrite store path content now with u | store'
    · exfalso
      unfold provWrite at hwr
      rw [if_neg hw] at hwr
      exact absurd hwr (by simp)
    · have hrb := provWrite_read_back store store' path content now hwr
        (provRead_ok_no_failRead store path e hread)
      obtain ⟨db', hdb⟩ := upsertNoteTx_okStmts db
        ⟨path, (parse yaml content).title, sumStr content,
          (parse yaml content).tags, now⟩
        (parse yaml content).body (parse yaml content).links
      constructor
      · refine ⟨buildNoteDetail yaml db' now path content, ?_⟩
        simp [svcUpdateNote, hread, hcond, hwr, svcIndexFile, hdb]
      · simp [svcUpdateNote, hread, hcond, hwr, svcIndexFile, hdb, hrb]

set_option maxRecDepth 4000 in
theorem C5_updateNote_ifMatch_witness :
    svcUpdateNote (fun _ => none) okStmts 0 c5Store emptyDB (str "n.md")
      (str "v3") (str "x") = (.error .conflict, c5Store, emptyDB) := by
  exact (C5_updateNote_ifMatch (fun _ => none) okStmts 0 c5Store emptyDB
    (str "n.md") (str "v3") (str "x") (str "v2") (by rfl)).1
    (by decide) (by decide)

/-- C6 counterexample: `GetNote` on a file whose filesystem modification
time is 5, called when the clock reads 7, returns a projection with
`updatedAt = 7` — the time of the call, not the file's mtime. -/
theorem C6_counterexample :
    svcGetNote (fun _ => none) emptyDB 7 c6Store (str "n.md") =
      .ok ⟨str "n.md", [], str "x", sumStr (str "x"), [], [], [], 7⟩ ∧
    (c6Store.files.find? (fun q => q.1 == str "n.md")).map (·.2.mtime) =
      some 5 ∧
    (7 : Nat) ≠ 5 := by
  refine ⟨by rfl, by rfl, by decide⟩

/-- C6 (amended): for every existing note, `GetNote` returns the
projection built by `buildNoteDetail`, whose `updatedAt` field is
`time.Now()` — the wall-clock time of the call — irrespective of the
file's modification time. -/
theorem C6_getNote_updatedAt_is_call_time (yaml : Yaml) (db : DBState)
    (now : Nat) (store : Provider) (path data : Str)
    (h : provRead store path = .ok data) :
    svcGetNote yaml db now store path =
      .ok (buildNoteDetail yaml db now path data) ∧
    (buildNoteDetail yaml db now path data).updatedAt = now := by
  unfold svcGetNote
  rw [h]
  exact ⟨rfl, rfl⟩

theorem C6_getNote_updatedAt_witness :
    svcGetNote (fun _ => none) emptyDB 7 c6Store (str "n.md") =
      .ok (buildNoteDetail (fun _ => none) emptyDB 7 (str "n.md")
        (str "x")) ∧
    (buildNoteDetail (fun _ => none) emptyDB 7 (str "n.md")
      (str "x")).updatedAt = 7 :=
  C6_getNote_updatedAt_is_call_time (fun _ => none) emptyDB 7 c6Store
    (str "n.md") (str "x") (by rfl)

/-- C7 counterexample: with `old.md` (content `A`) and `new.md`
(content `B`) both present, `Move("old.md", "new.md")` returns no error
and silently replaces the destination — the claim that it fails with a
destination-exists error and leaves both files unchanged is false. -/
theorem C7_counterexample :
    fsLookup c7FS (str "/v/new.md") = some (str "B") ∧
    fsMove (str "/v") c7FS (str "old.md") (str "new.md") =
      (.ok (), ⟨[(str "/v/new.md", str "A")]⟩,
        [.mkdirAll (str "/v"),
         .renameOver (str "/v/old.md") (str "/v/new.md")]) := by
  refine ⟨by rfl, by rfl⟩

/-- C7 (amended): when both paths validate and the source exists, `Move`
succeeds — even when the destination already exists, in which case the
POSIX rename replaces it with the source's content; no destination-exists
check is made. -/
theorem C7_move_overwrites_destination (root : Str) (fs : FileSys)
    (o n ao an content : Str) (ho : safePath root o = .ok ao)
    (hn : safePath root n = .ok an) (hsrc : fsLookup fs ao = some content) :
    (fsMove root fs o n).1 = .ok () ∧
    fsLookup (fsMove root fs o n).2.1 an = some content ∧
    (¬ ao = an → fsLookup (fsMove root fs o n).2.1 ao = none) := by
  unfold fsMove
  simp only [ho, hn, hsrc]
  refine ⟨trivial, ?_, ?_⟩
  · unfold fsLookup fsSet
    simp only
    rw [find?_upsertAssoc_self]
    rfl
  · intro hne
    unfold fsLookup fsSet fsErase
    simp only
    rw [find?_upsertAssoc_ne _ _ _ _ hne, find?_filter_not_key]
    rfl

theorem C7_move_overwrites_destination_witness :
    (fsMove (str "/v") c7FS (str "old.md") (str "new.md")).1 = .ok () ∧
    fsLookup (fsMove (str "/v") c7FS (str "old.md") (str "new.md")).2.1
      (str "/v/new.md") = some (str "A") ∧
    fsLookup (fsMove (str "/v") c7FS (str "old.md") (str "new.md")).2.1
      (str "/v/old.md") = none := by
  have h := C7_move_overwrites_destination (str "/v") c7FS (str "old.md")
    (str "new.md") (str "/v/old.md") (str "/v/new.md") (str "A")
    (by rfl) (by rfl) (by rfl)
  exact ⟨h.1, h.2.1, h.2.2 (by decide)⟩

/-- C9 counterexample: on a Create event whose first read fails, the
watcher makes exactly one read attempt, indexes nothing, and logs a
warning — it does not retry even though a second attempt would have
succeeded.  The claim that the read is retried once after a brief delay
is false at this input. -/
theorem C9_counterexample :
    c9Reads 0 = .error .io ∧
    c9Reads 1 = .ok (str "data") ∧
    watchMdWrite (fun _ => none) okStmts c9Reads emptyDB (str "x.md") true =
      ⟨emptyDB, [], 1, 1⟩ := by
  refine ⟨by rfl, by rfl, by rfl⟩

/-- C9 (amended): when the single read of a Create/Write event fails, the
watcher logs the failure and skips the event — one read attempt, no
retry, no index mutation, no published event. -/
theorem C9_watch_read_failure_no_retry (yaml : Yaml) (oracle : StmtOracle)
    (reads : Nat → Except ReadErr Str) (db : DBState) (rel : Str)
    (isCreate : Bool) (e : ReadErr) (h : reads 0 = .error e) :
    watchMdWrite yaml oracle reads db rel isCreate = ⟨db, [], 1, 1⟩ := by
  unfold watchMdWrite
  rw [h]

theorem C9_watch_read_failure_no_retry_witness :
    watchMdWrite (fun _ => none) okStmts c9Reads emptyDB (str "y.md")
      false = ⟨emptyDB, [], 1, 1⟩ :=
  C9_watch_read_failure_no_retry (fun _ => none) okStmts c9Reads emptyDB
    (str "y.md") false .io (by rfl)

/-! ### Prefix and substring-search lemmas for the frontmatter split -/

theorem isPre_iff (p : Str) : ∀ s : Str, isPre p s = true ↔ ∃ r, s = p ++ r := by
  induction p with
  | nil => intro s; simp [isPre]
  | cons a p ih =>
      intro s
      cases s with
      | nil =>
          simp only [isPre, Bool.false_eq_true, false_iff]
          intro ⟨r, hr⟩
          exact absurd hr (by simp)
      | cons b s' =>
          constructor
          · intro h
            simp only [isPre, Bool.and_eq_true, decide_eq_true_eq] at h
            obtain ⟨rfl, h2⟩ := h
            obtain ⟨r, rfl⟩ := (ih s').mp h2
            exact ⟨r, rfl⟩
          · intro ⟨r, hr⟩
            rw [List.cons_append] at hr
            injection hr with h1 h2
            subst h1
            simp only [isPre, Bool.and_eq_true, decide_eq_true_eq]
            exact ⟨by simp, (ih s').mpr ⟨r, h2⟩⟩

theorem findSub_none_iff (pat : Str) :
    ∀ s : Str, findSub pat s = none ↔ ¬ ∃ pre post, s = pre ++ pat ++ post := by
  intro s
  induction s with
  | nil =>
      by_cases hp : pat = []
      · subst hp
        simp [findSub]
      · simp only [findSub, hp, if_neg, true_iff]
        constructor
        · intro _ ⟨pre, post, h⟩
          have h0 := h.symm
          rw [List.append_assoc] at h0
          obtain ⟨h1, h2⟩ := List.append_eq_nil.mp h0
          obtain ⟨h3, _⟩ := List.append_eq_nil.mp h2
          exact hp h3
        · intro _
          rfl
  | cons c rest ih =>
      simp only [findSub]
      by_cases hpre : isPre pat (c :: rest) = true
      · rw [if_pos hpre]
        constructor
        · intro h
          exact absurd h (by simp)
        · intro hn
          exfalso
          obtain ⟨r, hr⟩ := (isPre_iff pat (c :: rest)).mp hpre
          exact hn ⟨[], r, by simpa using hr⟩
      · rw [if_neg hpre]
        rw [Option.map_eq_none', ih]
        constructor
        · intro hn ⟨pre, post, h⟩
          cases pre with
          | nil =>
              apply hpre
              rw [isPre_iff]
              exact ⟨post, by simpa using h⟩
          | cons x pre' =>
              rw [List.append_assoc, List.cons_append] at h
              injection h with h1 h2
              rw [← List.append_assoc] at h2
              exact hn ⟨pre', post, h2⟩
        · intro hn ⟨pre, post, h⟩
          exact hn ⟨c :: pre, post, by simp [h]⟩

theorem findSub_le (pat : Str) :
    ∀ (s : Str) (i : Nat), findSub pat s = some i →
      ∀ pre post, s = pre ++ pat ++ post → i ≤ pre.length := by
  intro s
  induction s with
  | nil =>
      intro i h pre post _
      by_cases hp : pat = []
      · subst hp
        simp only [findSub, if_pos] at h
        injection h with h'
        omega
      · simp [findSub, hp] at h
  | cons c rest ih =>
      intro i h pre post hd
      simp only [findSub] at h
      by_cases hpre : isPre pat (c :: rest) = true
      · rw [if_pos hpre] at h
        injection h with h'
        omega
      · rw [if_neg hpre] at h
        rcases hf : findSub pat rest with _ | i'
        · rw [hf] at h
          exact absurd h (by simp)
        · rw [hf] at h
          simp only [Option.map_some'] at h
          injection h with h'
          cases pre with
          | nil =>
              exfalso
              apply hpre
              rw [isPre_iff]
              exact ⟨post, by simpa using hd⟩
          | cons x pre' =>
              rw [List.append_assoc, List.cons_append] at hd
              injection hd with h1 h2
              rw [← List.append_assoc] at h2
              have := ih i' hf pre' post h2
              simp only [List.length_cons]
              omega

theorem findSub_decomp (pat : Str) :
    ∀ (s : Str) (i : Nat), findSub pat s = some i →
      s = s.take i ++ pat ++ s.drop (i + pat.length) := by
  intro s
  induction s with
  | nil =>
      intro i h
      by_cases hp : pat = []
      · subst hp
        simp
      · simp [findSub, hp] at h
  | cons c rest ih =>
      intro i h
      simp only [findSub] at h
      by_cases hpre : isPre pat (c :: rest) = true
      · rw [if_pos hpre] at h
        injection h with h'
        subst h'
        obtain ⟨r, hr⟩ := (isPre_iff pat (c :: rest)).mp hpre
        rw [hr]
        simp only [List.take_zero, List.nil_append, Nat.zero_add,
          List.drop_left]
      · rw [if_neg hpre] at h
        rcases hf : findSub pat rest with _ | i'
        · rw [hf] at h
          exact absurd h (by simp)
        · rw [hf] at h
          simp only [Option.map_some'] at h
          injection h with h'
          subst h'
          have hrec := ih i' hf
          calc c :: rest = c :: (rest.take i' ++ pat ++
              rest.drop (i' + pat.length)) := by rw [← hrec]
            _ = (c :: rest).take (i' + 1) ++ pat ++
                (c :: rest).drop (i' + 1 + pat.length) := by
              have hd : (i' + 1 + pat.length) = (i' + pat.length) + 1 := by
                omega
              rw [hd]
              simp [List.take_succ_cons, List.drop_succ_cons]

/-- C8 counterexample: for the input `"--- \n---\nbody"` — whose first
line after stripping is `"--- "`, not exactly `"---"` — the parser still
treats the prefix `---` as an opening delimiter, parses the whitespace
block as empty YAML, and returns body `"body"`, not the entire original
bytes as the claim requires. -/
theorem C8_counterexample :
    splitFrontmatter yamlNullWs (str "--- \n---\nbody") =
      ([], str "body") ∧
    (splitOnChar '\n'
        (trimLeftIn ['\n', '\r'] (str "--- \n---\nbody"))).head? =
      some (str "--- ") ∧
    ¬ str "--- " = str "---" ∧
    ¬ str "body" = str "--- \n---\nbody" := by
  refine ⟨by rfl, by rfl, by decide, by decide⟩

/-- C8 (amended): frontmatter parsing is attempted whenever the content,
after stripping leading line terminators, starts with the three bytes
`---` (even when its first line is not exactly `---`); the closing
delimiter is the earliest later occurrence of `"\n---"` (even mid-line);
the bytes between are given to the YAML parser, and on a YAML failure —
or when no closing occurrence exists — the entire original bytes are the
body with empty frontmatter and no error; when there is no `---` prefix
the whole input is the body. -/
theorem C8_splitFrontmatter_characterization (yaml : Yaml) (data : Str) :
    (¬ (∃ r, trimLeftIn ['\n', '\r'] data = str "---" ++ r) →
      splitFrontmatter yaml data = ([], data)) ∧
    (∀ r, trimLeftIn ['\n', '\r'] data = str "---" ++ r →
      ((¬ ∃ pre post, r = pre ++ str "\n---" ++ post) →
        splitFrontmatter yaml data = ([], data)) ∧
      (∀ pre post, r = pre ++ str "\n---" ++ post →
        (∀ pre' post', r = pre' ++ str "\n---" ++ post' →
          pre.length ≤ pre'.length) →
        (yaml pre = none → splitFrontmatter yaml data = ([], data)) ∧
        (∀ fm, yaml pre = some fm →
          splitFrontmatter yaml data =
            (fm, trimLeftIn ['\n', '\r'] post)))) := by
  constructor
  · intro hno
    have hpre : ¬ isPre (str "---") (trimLeftIn ['\n', '\r'] data) = true := by
      rw [isPre_iff]
      exact hno
    unfold splitFrontmatter
    rw [if_pos hpre]
  · intro r hr
    have hpre : isPre (str "---") (trimLeftIn ['\n', '\r'] data) = true := by
      rw [isPre_iff]
      exact ⟨r, hr⟩
    have hdrop : (trimLeftIn ['\n', '\r'] data).drop 3 = r := by
      rw [hr]
      exact List.drop_left (str "---") r
    constructor
    · intro hno
      have hfind : findSub ('\n' :: str "---") r = none := by
        rw [findSub_none_iff]
        intro ⟨pre, post, h⟩
        exact hno ⟨pre, post, h⟩
      simp [splitFrontmatter, hpre, hdrop, hfind]
    · intro pre post hdec hmin
      rcases hf : findSub ('\n' :: str "---") r with _ | idx
      · exfalso
        rw [findSub_none_iff] at hf
        exact hf ⟨pre, post, hdec⟩
      · have hle : idx ≤ pre.length :=
          findSub_le ('\n' :: str "---") r idx hf pre post hdec
        have hdc := findSub_decomp ('\n' :: str "---") r idx hf
        have h4 : ('\n' :: str "---").length = 4 := by rfl
        have hdc4 : r = r.take idx ++ str "\n---" ++ r.drop (idx + 4) := by
          have hps : ('\n' :: str "---") = str "\n---" := by rfl
          rw [h4, hps] at hdc
          exact hdc
        have hrlen : idx + 4 ≤ r.length := by
          have hl := congrArg List.length hdc4
          simp only [List.length_append, List.length_take,
            List.length_drop] at hl
          have hps4 : (str "\n---").length = 4 := by rfl
          rw [hps4] at hl
          omega
        have hlen2 : (r.take idx).length = idx := by
          rw [List.length_take]
          omega
        have hge : pre.length ≤ idx := by
          have := hmin (r.take idx) (r.drop (idx + 4)) hdc4
          omega
        have hprepost : pre = r.take idx ∧ post = r.drop (idx + 4) := by
          have hdc' : pre ++ (str "\n---" ++ post) =
              r.take idx ++ (str "\n---" ++ r.drop (idx + 4)) := by
            rw [← List.append_assoc, ← List.append_assoc, ← hdec]
            exact hdc4
          obtain ⟨h1, h2⟩ := List.append_inj hdc' (by omega)
          obtain ⟨_, h3⟩ := List.append_inj h2 (by rfl)
          exact ⟨h1, h3⟩
        have h43 : idx + 1 + 3 = idx + 4 := by omega
        constructor
        · intro hyaml
          rw [hprepost.1] at hyaml
          simp [splitFrontmatter, hpre, hdrop, hf, hyaml]
        · intro fm hyaml
          rw [hprepost.1] at hyaml
          simp only [splitFrontmatter, hpre, not_true_eq_false,
            Bool.false_eq_true, if_false, hdrop, hf, h43, hyaml]
          rw [← hprepost.2]

theorem C8_splitFrontmatter_characterization_witness :
    splitFrontmatter yamlNullWs (str "--- \n---\nbody") =
      ([], str "body") := by
  have h := (C8_splitFrontmatter_characterization yamlNullWs
    (str "--- \n---\nbody")).2 (str " \n---\nbody") (by rfl)
  have hmin : ∀ pre' post',
      (str " \n---\nbody" : Str) = pre' ++ str "\n---" ++ post' →
      (str " " : Str).length ≤ pre'.length := by
    intro pre' post' hp
    cases pre' with
    | nil =>
        exfalso
        rw [List.nil_append] at hp
        have hcons : (str " \n---\nbody" : Str) =
            ' ' :: str "\n---\nbody" := by rfl
        have hcons2 : (str "\n---" : Str) = '\n' :: str "---" := by rfl
        rw [hcons, hcons2, List.cons_append] at hp
        injection hp with h1 _
        exact absurd h1 (by decide)
    | cons a t =>
        have h1 : (str " " : Str).length = 1 := by rfl
        rw [h1]
        simp only [List.length_cons]
        omega
  have h2 := (h.2 (str " ") (str "\nbody") (by decide) hmin).2 [] (by rfl)
  rw [h2]
  rfl

/-! ### The digest is never empty -/

theorem shaRound_length (st : List Nat) (k w : Nat) :
    (shaRound st k w).length = st.length := by
  unfold shaRound
  split
  · simp
  · rfl

theorem foldl_shaRound_length (f g : Nat → Nat) :
    ∀ (l : List Nat) (st : List Nat),
      (l.foldl (fun st i => shaRound st (f i) (g i)) st).length =
        st.length := by
  intro l
  induction l with
  | nil => intro st; rfl
  | cons a l ih =>
      intro st
      simp only [List.foldl_cons]
      rw [ih, shaRound_length]

theorem shaBlock_length (hsh block : List Nat) (h : hsh.length = 8) :
    (shaBlock hsh block).length = 8 := by
  unfold shaBlock
  rw [List.length_zipWith, foldl_shaRound_length, h]
  rfl

theorem foldl_shaBlock_length :
    ∀ (chunks : List (List Nat)) (st : List Nat), st.length = 8 →
      (chunks.foldl shaBlock st).length = 8 := by
  intro chunks
  induction chunks with
  | nil => intro st h; exact h
  | cons c chunks ih =>
      intro st h
      simp only [List.foldl_cons]
      exact ih _ (shaBlock_length st c h)

theorem length_flatMap_wordBytes :
    ∀ l : List Nat, (l.flatMap wordBytes).length = 4 * l.length := by
  intro l
  induction l with
  | nil => rfl
  | cons a l ih =>
      simp only [List.flatMap_cons, List.length_append, ih,
        List.length_cons]
      have : (wordBytes a).length = 4 := rfl
      rw [this]
      omega

theorem sha256_length (msg : List Nat) : (sha256 msg).length = 32 := by
  unfold sha256
  rw [length_flatMap_wordBytes, foldl_shaBlock_length _ _ (by rfl)]

theorem checksumSum_ne_nil (bs : List Nat) : ¬ checksumSum bs = [] := by
  intro h
  have h32 := sha256_length bs
  unfold checksumSum at h
  rcases hs : sha256 bs with _ | ⟨a, rest⟩
  · rw [hs] at h32
    simp at h32
  · rw [hs] at h
    unfold hexEncode at h
    simp only [List.flatMap_cons] at h
    exact absurd h (by simp)

theorem sumStr_ne_nil (s : Str) : ¬ sumStr s = [] :=
  checksumSum_ne_nil (utf8 s)

theorem beq_nil_of_ne_nil (l : Str) (h : ¬ l = []) :
    (([] : Str) == l) = false := by
  rcases l with _ | ⟨c, t⟩
  · exact absurd rfl h
  · rfl

/-! ### Keyed association-list lemmas -/

theorem find?_key_filter_self {α : Type} (key : α → Str) (l : List α)
    (a : Str) :
    (l.filter (fun x => ¬ key x == a)).find? (fun x => key x == a) =
      none := by
  induction l with
  | nil => rfl
  | cons q t ih =>
      rcases hq : (key q == a) with _ | _
      · simp only [List.filter_cons, hq]
        simp only [Bool.false_eq_true, not_false_eq_true, decide_True,
          if_true, List.find?_cons, hq]
        exact ih
      · simp only [List.filter_cons, hq]
        simp only [not_true_eq_false, decide_False, Bool.false_eq_true,
          if_false]
        exact ih

theorem find?_key_filter_ne {α : Type} (key : α → Str) (l : List α)
    (a b : Str) (hne : ¬ b = a) :
    (l.filter (fun x => ¬ key x == a)).find? (fun x => key x == b) =
      l.find? (fun x => key x == b) := by
  rw [List.find?_filter]
  congr 1
  funext x
  rcases hb : (key x == b) with _ | _
  · simp [hb]
  · have ha : (key x == a) = false := by
      rcases hx : (key x == a) with _ | _
      · rfl
      · exact absurd ((eq_of_beq hb).symm.trans (eq_of_beq hx)) hne
    simp [hb, ha]

theorem find?_upsertRowList_self (r : NoteRowS) (rows : List NoteRowS)
    (p : Str) (hp : r.path = p) :
    (upsertRowList r rows).find? (fun q => q.path == p) = some r := by
  subst hp
  unfold upsertRowList
  by_cases h : rows.any (fun q => q.path == r.path) = true
  · rw [if_pos h]
    induction rows with
    | nil => simp at h
    | cons q t ih =>
        rcases hq : (q.path == r.path) with _ | _
        · have ht : t.any (fun q => q.path == r.path) = true := by
            simp only [List.any_cons, hq, Bool.false_or] at h
            exact h
          simp only [List.map_cons, hq, Bool.false_eq_true, if_false,
            List.find?_cons, hq]
          exact ih ht
        · simp only [List.map_cons, hq, if_true, List.find?_cons,
            beq_self_eq_true]
  · rw [if_neg h]
    induction rows with
    | nil => simp [List.find?, beq_self_eq_true]
    | cons q t ih =>
        have hq : (q.path == r.path) = false := by
          rcases hqq : (q.path == r.path) with _ | _
          · rfl
          · exact absurd (by simp [List.any_cons, hqq]) h
        have ht : ¬ t.any (fun q => q.path == r.path) = true := by
          intro htt
          exact h (by simp [List.any_cons, htt])
        simp only [List.cons_append, List.find?_cons, hq]
        exact ih ht

theorem find?_upsertRowList_ne (r : NoteRowS) (rows : List NoteRowS)
    (p : Str) (hne : ¬ p = r.path) :
    (upsertRowList r rows).find? (fun q => q.path == p) =
      rows.find? (fun q => q.path == p) := by
  unfold upsertRowList
  by_cases h : rows.any (fun q => q.path == r.path) = true
  · rw [if_pos h]
    clear h
    induction rows with
    | nil => rfl
    | cons q t ih =>
        rcases hq : (q.path == r.path) with _ | _
        · simp only [List.map_cons, hq, Bool.false_eq_true, if_false,
            List.find?_cons]
          rcases hqb : (q.path == p) with _ | _
          · exact ih
          · rfl
        · have hrp : (r.path == p) = false := by
            rcases hx : (r.path == p) with _ | _
            · rfl
            · exact absurd (eq_of_beq hx) (fun hh => hne hh.symm)
          have hqp : (q.path == p) = false := by
            rcases hx : (q.path == p) with _ | _
            · rfl
            · exact absurd ((eq_of_beq hq).symm.trans (eq_of_beq hx))
                (fun hh => hne hh.symm)
          simp only [List.map_cons, hq, if_true, List.find?_cons, hrp, hqp]
          exact ih
  · rw [if_neg h]
    clear h
    induction rows with
    | nil =>
        have hrp : (r.path == p) = false := by
          rcases hx : (r.path == p) with _ | _
          · rfl
          · exact absurd (eq_of_beq hx) (fun hh => hne hh.symm)
        simp [List.find?, hrp]
    | cons q t ih =>
        simp only [List.cons_append, List.find?_cons]
        rcases hqb : (q.path == p) with _ | _
        · exact ih
        · rfl

/-- `insertLinks` under the all-success oracle succeeds and touches only
the links table. -/
theorem insertLinks_okStmts_preserves (src : Str) :
    ∀ (ts : List Str) (db : DBState),
      ∃ db', insertLinks okStmts src ts db = .ok db' ∧
        db'.notes = db.notes ∧ db'.fts = db.fts := by
  intro ts
  induction ts with
  | nil => intro db; exact ⟨db, rfl, rfl, rfl⟩
  | cons t ts ih =>
      intro db
      unfold insertLinks
      simp only [okStmts, Bool.false_eq_true, if_false]
      by_cases hdup :
          db.links.any (fun l => l.source == src && l.target == t) = true
      · rw [if_pos hdup]
        exact ih db
      · rw [if_neg hdup]
        obtain ⟨db', h1, h2, h3⟩ := ih
          { db with links := db.links ++ [⟨src, t, str "inline"⟩] }
        exact ⟨db', h1, h2, h3⟩

/-- `indexFile` under the all-success oracle: the transaction commits and
the notes table becomes the upsert of a row whose checksum is the SHA-256
of the data. -/
theorem syncIndexFile_okStmts_csLookup (yaml : Yaml) (db : DBState)
    (path data : Str) :
    ∃ db', syncIndexFile yaml okStmts db path data = .ok db' ∧
      ∀ p, csLookup db' p =
        if p = path then some (sumStr data) else csLookup db p := by
  unfold syncIndexFile upsertNoteTx
  simp only [okStmts, Bool.false_eq_true, if_false, Bool.and_false]
  obtain ⟨db', h1, h2, _⟩ := insertLinks_okStmts_preserves path
    (parse yaml data).links
    { notes := upsertRowList
        ⟨path, (parse yaml data).title, sumStr data,
          jsonEncodeTags (parse yaml data).tags, (parse yaml data).body, 0⟩
        db.notes
      links := (db.links.filter (fun l => ¬ l.source == path))
      fts := db.fts.filter (fun r => ¬ r.path == path) ++
        [⟨path, (parse yaml data).title, (parse yaml data).body,
          joinWith (str " ") (parse yaml data).tags⟩] }
  rw [h1]
  refine ⟨db', rfl, ?_⟩
  intro p
  unfold csLookup
  rw [h2]
  simp only
  by_cases hp : p = path
  · subst hp
    rw [find?_upsertRowList_self _ _ _ (by rfl)]
    simp
  · rw [find?_upsertRowList_ne _ _ _ hp]
    simp [hp]

theorem find?_key_nodup {α : Type} (key : α → Str) :
    ∀ (l : List α) (q : α), (l.map key).Nodup → q ∈ l →
      l.find? (fun x => key x == key q) = some q := by
  intro l
  induction l with
  | nil => intro q _ hq; exact absurd hq (List.not_mem_nil q)
  | cons h t ih =>
      intro q hnd hq
      rcases List.mem_cons.mp hq with rfl | hq'
      · rw [List.find?_cons]
        rw [beq_self_eq_true]
      · have hmem : key q ∈ t.map key := List.mem_map.mpr ⟨q, hq', rfl⟩
        have hhd : ¬ key h = key q := by
          intro he
          rw [List.map_cons, List.nodup_cons] at hnd
          exact hnd.1 (he ▸ hmem)
        have hb : (key h == key q) = false := by
          rcases hx : (key h == key q) with _ | _
          · rfl
          · exact absurd (eq_of_beq hx) hhd
        rw [List.find?_cons, hb]
        rw [List.map_cons, List.nodup_cons] at hnd
        exact ih q hnd.2 hq'

/-! ### Sync step and fold lemmas -/

theorem syncStep_skip (yaml : Yaml) (store : Provider)
    (checksums : List (Str × Str)) (acc : DBState) (m : NoteMetadata)
    (hc : (lookupD checksums m.path == m.checksum) = true) :
    syncStep yaml okStmts store checksums acc m = acc := by
  unfold syncStep
  rw [if_pos hc]

theorem syncStep_other (yaml : Yaml) (store : Provider)
    (checksums : List (Str × Str)) (acc : DBState) (m : NoteMetadata)
    (p : Str) (hp : ¬ p = m.path) :
    csLookup (syncStep yaml okStmts store checksums acc m) p =
      csLookup acc p := by
  unfold syncStep
  by_cases hc : (lookupD checksums m.path == m.checksum) = true
  · rw [if_pos hc]
  · rw [if_neg hc]
    rcases hr : provRead store m.path with e | data
    · rfl
    · obtain ⟨db', h1, h2⟩ :=
        syncIndexFile_okStmts_csLookup yaml acc m.path data
      simp only [h1]
      rw [h2 p, if_neg hp]

theorem syncStep_self (yaml : Yaml) (store : Provider)
    (checksums : List (Str × Str)) (acc : DBState) (m : NoteMetadata)
    (data : Str)
    (hc : (lookupD checksums m.path == m.checksum) = false)
    (hr : provRead store m.path = .ok data) :
    csLookup (syncStep yaml okStmts store checksums acc m) m.path =
      some (sumStr data) := by
  unfold syncStep
  simp only [hc, Bool.false_eq_true, if_false, hr]
  obtain ⟨db', h1, h2⟩ :=
    syncIndexFile_okStmts_csLookup yaml acc m.path data
  simp only [h1]
  rw [h2 m.path, if_pos rfl]

theorem syncUpsertFold_csLookup (yaml : Yaml) (store : Provider)
    (checksums : List (Str × Str)) :
    ∀ (metas : List NoteMetadata),
      (metas.map (·.path)).Nodup →
      (∀ m ∈ metas, ∃ data, provRead store m.path = .ok data ∧
        sumStr data = m.checksum) →
      ∀ (acc : DBState) (p : Str),
        csLookup (metas.foldl (syncStep yaml okStmts store checksums) acc)
            p =
          (match metas.find? (fun m => m.path == p) with
           | some m =>
               if (lookupD checksums m.path == m.checksum) = true
               then csLookup acc p else some m.checksum
           | none => csLookup acc p) := by
  intro metas
  induction metas with
  | nil => intro _ _ acc p; rfl
  | cons m rest ih =>
      intro hnd hup acc p
      have hndr : (rest.map (·.path)).Nodup := by
        rw [List.map_cons, List.nodup_cons] at hnd
        exact hnd.2
      have hupr : ∀ m' ∈ rest, ∃ data,
          provRead store m'.path = .ok data ∧ sumStr data = m'.checksum :=
        fun m' hm' => hup m' (List.mem_cons_of_mem m hm')
      simp only [List.foldl_cons]
      rcases hp : (m.path == p) with _ | _
      · have hp' : ¬ p = m.path := by
          intro hh
          rw [hh, beq_self_eq_true] at hp
          exact absurd hp (by simp)
        have hsc := syncStep_other yaml store checksums acc m p hp'
        simp only [List.find?_cons, hp]
        rw [ih hndr hupr _ p]
        rcases hf : rest.find? (fun m' => m'.path == p) with _ | m'
        · simp only [hf]
          exact hsc
        · simp only [hf]
          by_cases hc : (lookupD checksums m'.path == m'.checksum) = true
          · rw [if_pos hc, if_pos hc]
            exact hsc
          · rw [if_neg hc, if_neg hc]
      · have hpe : p = m.path := (eq_of_beq hp).symm
        have hnone : rest.find? (fun m' => m'.path == p) = none := by
          rw [List.find?_eq_none]
          intro x hx hbx
          have hxm : x.path ∈ rest.map (·.path) :=
            List.mem_map.mpr ⟨x, hx, rfl⟩
          rw [eq_of_beq hbx, hpe] at hxm
          rw [List.map_cons, List.nodup_cons] at hnd
          exact hnd.1 hxm
        simp only [List.find?_cons, hp]
        rw [ih hndr hupr _ p, hnone]
        by_cases hc : (lookupD checksums m.path == m.checksum) = true
        · rw [if_pos hc, syncStep_skip yaml store checksums acc m hc]
        · rw [if_neg hc]
          obtain ⟨data, hr, hs⟩ := hup m (List.mem_cons_self m rest)
          subst hpe
          rw [syncStep_self yaml store checksums acc m data
            (Bool.eq_false_iff.mpr hc) hr, hs]

theorem syncUpsertFold_id (yaml : Yaml) (store : Provider)
    (checksums : List (Str × Str)) :
    ∀ (metas : List NoteMetadata) (acc : DBState),
      (∀ m ∈ metas, (lookupD checksums m.path == m.checksum) = true) →
      metas.foldl (syncStep yaml okStmts store checksums) acc = acc := by
  intro metas
  induction metas with
  | nil => intro acc _; rfl
  | cons m rest ih =>
      intro acc h
      simp only [List.foldl_cons]
      rw [syncStep_skip yaml store checksums acc m
        (h m (List.mem_cons_self m rest))]
      exact ih acc (fun m' hm' => h m' (List.mem_cons_of_mem m hm'))

theorem syncDeleteFold_skip (metas : List NoteMetadata) :
    ∀ (cs : List (Str × Str)) (acc : DBState),
      (∀ pr ∈ cs, metas.any (fun m => m.path == pr.1) = true) →
      cs.foldl (syncDeleteStep okStmts metas) acc = acc := by
  intro cs
  induction cs with
  | nil => intro acc _; rfl
  | cons pr cs ih =>
      intro acc h
      simp only [List.foldl_cons]
      have hstep : syncDeleteStep okStmts metas acc pr = acc := by
        unfold syncDeleteStep
        rw [if_pos (h pr (List.mem_cons_self pr cs))]
      rw [hstep]
      exact ih acc (fun pr' hpr' => h pr' (List.mem_cons_of_mem pr hpr'))

theorem lookupD_allChecksums (db : DBState) (p : Str) :
    lookupD (allChecksums db) p = (csLookup db p).getD [] := by
  unfold lookupD allChecksums csLookup
  rw [List.find?_map]
  have hpred : ((fun pr : Str × Str => pr.1 == p) ∘
      fun r : NoteRowS => (r.path, r.checksum)) =
      fun r : NoteRowS => r.path == p := rfl
  rw [hpred]
  rcases h : db.notes.find? (fun r => r.path == p) with _ | r
  · simp [h]
  · simp [h]

theorem allChecksums_eraseRow (db : DBState) (p0 : Str) :
    allChecksums (eraseRow db p0) =
      (allChecksums db).filter (fun pr => ¬ pr.1 == p0) := by
  unfold allChecksums eraseRow
  simp only
  induction db.notes with
  | nil => rfl
  | cons r t ih =>
      rcases hr : (r.path == p0) with _ | _
      · have hr' : ¬ r.path = p0 := by
          intro hh
          rw [hh, beq_self_eq_true] at hr
          exact absurd hr (by simp)
        simp [List.filter_cons, hr']
        simpa using ih
      · have hr' : r.path = p0 := eq_of_beq hr
        simp [List.filter_cons, hr']
        simpa using ih

theorem csLookup_eraseRow_self (db : DBState) (p0 : Str) :
    csLookup (eraseRow db p0) p0 = none := by
  unfold csLookup eraseRow
  simp only
  rw [find?_key_filter_self (fun r : NoteRowS => r.path) db.notes p0]
  rfl

theorem csLookup_eraseRow_ne (db : DBState) (p0 p : Str) (h : ¬ p = p0) :
    csLookup (eraseRow db p0) p = csLookup db p := by
  unfold csLookup eraseRow
  simp only
  rw [find?_key_filter_ne (fun r : NoteRowS => r.path) db.notes p0 p h]

theorem lookupD_filter_self (l : List (Str × Str)) (p0 : Str) :
    lookupD (l.filter (fun pr => ¬ pr.1 == p0)) p0 = [] := by
  unfold lookupD
  rw [find?_key_filter_self (fun x : Str × Str => x.1) l p0]

theorem provList_map_path (store : Provider) :
    (provList store).map (·.path) = store.files.map (·.1) := by
  unfold provList
  rw [List.map_map]
  rfl

theorem find?_provList (store : Provider) (p : Str) :
    (provList store).find? (fun m => m.path == p) =
      (store.files.find? (fun q => q.1 == p)).map
        (fun q => ⟨q.1, sumStr q.2.content, q.2.mtime⟩) := by
  unfold provList
  rw [List.find?_map]
  rfl

theorem provRead_files (store : Provider) (q : Str × FileEntry)
    (hnd : (store.files.map (·.1)).Nodup) (hq : q ∈ store.files)
    (hfr : store.failReads = []) :
    provRead store q.1 = .ok q.2.content := by
  unfold provRead
  rw [hfr, if_neg (List.not_mem_nil q.1)]
  rw [find?_key_nodup (fun x : Str × FileEntry => x.1) store.files q hnd hq]

/-- C3: from an empty index, one `Sync` run (all reads succeeding, i.e. no
injected read failures) makes the stored path→checksum map equal the map
obtained by walking the vault and hashing each `.md`; a second run is a
no-op (exact fixpoint); and after deleting any single index row, another
run restores the same checksum map. -/
theorem C3_sync_convergence (yaml : Yaml) (store : Provider)
    (hnd : (store.files.map (·.1)).Nodup)
    (hfr : store.failReads = []) :
    (∀ p, csLookup (sync yaml okStmts store emptyDB) p = diskCs store p) ∧
    (sync yaml okStmts store (sync yaml okStmts store emptyDB) =
      sync yaml okStmts store emptyDB) ∧
    (∀ p0 p,
      csLookup (sync yaml okStmts store
        (eraseRow (sync yaml okStmts store emptyDB) p0)) p =
      csLookup (sync yaml okStmts store emptyDB) p) := by
  have hmetand : ((provList store).map (·.path)).Nodup := by
    rw [provList_map_path]
    exact hnd
  have hup : ∀ m ∈ provList store, ∃ data,
      provRead store m.path = .ok data ∧ sumStr data = m.checksum := by
    intro m hm
    obtain ⟨q, hq, rfl⟩ := List.mem_map.mp hm
    exact ⟨q.2.content, provRead_files store q hnd hq hfr, rfl⟩
  have ha : ∀ p, csLookup (sync yaml okStmts store emptyDB) p =
      diskCs store p := by
    intro p
    have hsync : sync yaml okStmts store emptyDB =
        (provList store).foldl
          (syncStep yaml okStmts store (allChecksums emptyDB)) emptyDB := rfl
    rw [hsync,
      syncUpsertFold_csLookup yaml store (allChecksums emptyDB)
        (provList store) hmetand hup emptyDB p,
      find?_provList store p]
    rcases hfq : store.files.find? (fun q => q.1 == p) with _ | q
    · simp [diskCs, hfq, csLookup, emptyDB]
    · have hne := sumStr_ne_nil q.2.content
      have hbeq : ((lookupD (allChecksums emptyDB) q.1 ==
          sumStr q.2.content)) = false := by
        have h0 : lookupD (allChecksums emptyDB) q.1 = [] := rfl
        rw [h0]
        exact beq_nil_of_ne_nil _ hne
      simp [diskCs, hfq, hbeq]
  have hb1 : ∀ m ∈ provList store,
      ((lookupD (allChecksums (sync yaml okStmts store emptyDB)) m.path ==
        m.checksum)) = true := by
    intro m hm
    obtain ⟨q, hq, rfl⟩ := List.mem_map.mp hm
    dsimp only
    rw [lookupD_allChecksums, ha]
    unfold diskCs
    rw [find?_key_nodup (fun x : Str × FileEntry => x.1) store.files q hnd
      hq]
    simp
  have hb2 : ∀ pr ∈ allChecksums (sync yaml okStmts store emptyDB),
      (provList store).any (fun m => m.path == pr.1) = true := by
    intro pr hpr
    obtain ⟨rrow, hrr, rfl⟩ := List.mem_map.mp hpr
    have hsome : ¬ csLookup (sync yaml okStmts store emptyDB) rrow.path =
        none := by
      unfold csLookup
      intro hcontra
      rw [Option.map_eq_none', List.find?_eq_none] at hcontra
      exact hcontra rrow hrr (by rw [beq_self_eq_true])
    rw [ha] at hsome
    unfold diskCs at hsome
    rcases hfq : store.files.find? (fun x => x.1 == rrow.path) with _ | q
    · rw [hfq] at hsome
      simp at hsome
    · have hqmem : q ∈ store.files := List.mem_of_find?_eq_some hfq
      have hqp := List.find?_some hfq
      rw [List.any_eq_true]
      exact ⟨⟨q.1, sumStr q.2.content, q.2.mtime⟩,
        List.mem_map.mpr ⟨q, hqmem, rfl⟩, hqp⟩
  have hb : sync yaml okStmts store (sync yaml okStmts store emptyDB) =
      sync yaml okStmts store emptyDB := by
    have hdef : sync yaml okStmts store (sync yaml okStmts store emptyDB) =
        (allChecksums (sync yaml okStmts store emptyDB)).foldl
          (syncDeleteStep okStmts (provList store))
          ((provList store).foldl
            (syncStep yaml okStmts store
              (allChecksums (sync yaml okStmts store emptyDB)))
            (sync yaml okStmts store emptyDB)) := rfl
    rw [hdef,
      syncUpsertFold_id yaml store _ (provList store) _ hb1,
      syncDeleteFold_skip (provList store) _ _ hb2]
  refine ⟨ha, hb, ?_⟩
  intro p0 p
  have hcs2 : allChecksums
      (eraseRow (sync yaml okStmts store emptyDB) p0) =
      (allChecksums (sync yaml okStmts store emptyDB)).filter
        (fun pr => ¬ pr.1 == p0) := allChecksums_eraseRow _ p0
  have hdef : sync yaml okStmts store
      (eraseRow (sync yaml okStmts store emptyDB) p0) =
      (allChecksums (eraseRow (sync yaml okStmts store emptyDB) p0)).foldl
        (syncDeleteStep okStmts (provList store))
        ((provList store).foldl
          (syncStep yaml okStmts store
            (allChecksums (eraseRow (sync yaml okStmts store emptyDB) p0)))
          (eraseRow (sync yaml okStmts store emptyDB) p0)) := rfl
  have hskip : ∀ pr ∈ allChecksums
      (eraseRow (sync yaml okStmts store emptyDB) p0),
      (provList store).any (fun m => m.path == pr.1) = true := by
    intro pr hpr
    rw [hcs2] at hpr
    exact hb2 pr (List.mem_of_mem_filter hpr)
  rw [hdef, syncDeleteFold_skip _ _ _ hskip,
    syncUpsertFold_csLookup yaml store _ (provList store) hmetand hup _ p,
    find?_provList store p]
  rcases hfq : store.files.find? (fun q => q.1 == p) with _ | q
  · simp only [hfq, Option.map_none']
    have hSp : csLookup (sync yaml okStmts store emptyDB) p = none := by
      rw [ha]
      unfold diskCs
      rw [hfq]
      rfl
    rw [hSp]
    by_cases hpp : p = p0
    · subst hpp
      exact csLookup_eraseRow_self _ p
    · rw [csLookup_eraseRow_ne _ p0 p hpp, hSp]
  · simp only [hfq, Option.map_some']
    have hSp : csLookup (sync yaml okStmts store emptyDB) p =
        some (sumStr q.2.content) := by
      rw [ha]
      unfold diskCs
      rw [hfq]
      rfl
    rw [hSp]
    by_cases hq2 : (lookupD (allChecksums
        (eraseRow (sync yaml okStmts store emptyDB) p0)) q.1 ==
        sumStr q.2.content) = true
    · rw [if_pos hq2]
      have hpp : ¬ p = p0 := by
        intro hh
        subst hh
        have hfs := List.find?_some hfq
        have hq1p : q.1 = p := eq_of_beq hfs
        rw [hcs2, hq1p, lookupD_filter_self] at hq2
        rw [beq_nil_of_ne_nil _ (sumStr_ne_nil q.2.content)] at hq2
        exact absurd hq2 (by simp)
      rw [csLookup_eraseRow_ne _ p0 p hpp, hSp]
    · rw [if_neg hq2]

theorem C3_sync_convergence_witness :
    csLookup (sync (fun _ => none) okStmts c3Store emptyDB) (str "a.md") =
      diskCs c3Store (str "a.md") ∧
    sync (fun _ => none) okStmts c3Store
      (sync (fun _ => none) okStmts c3Store emptyDB) =
      sync (fun _ => none) okStmts c3Store emptyDB ∧
    csLookup (sync (fun _ => none) okStmts c3Store
      (eraseRow (sync (fun _ => none) okStmts c3Store emptyDB)
        (str "a.md"))) (str "a.md") =
      csLookup (sync (fun _ => none) okStmts c3Store emptyDB)
        (str "a.md") := by
  have h := C3_sync_convergence (fun _ => none) c3Store (by decide) (by rfl)
  exact ⟨h.1 (str "a.md"), h.2.1, h.2.2 (str "a.md") (str "a.md")⟩

/-! ### Path-cleaning lemmas for traversal safety -/

theorem joinWith_cons₂ (x y : Str) (rest : List Str) :
    joinWith (str "/") (x :: y :: rest) =
      x ++ '/' :: joinWith (str "/") (y :: rest) := by
  have h : joinWith (str "/") (x :: y :: rest) =
      (x ++ str "/") ++ joinWith (str "/") (y :: rest) := rfl
  rw [h, List.append_assoc]
  rfl

theorem splitOnChar_append_sep (p : Str) (s : Str) (hp : ¬ '/' ∈ p) :
    splitOnChar '/' (p ++ '/' :: s) = p :: splitOnChar '/' s := by
  induction p with
  | nil => simp [splitOnChar]
  | cons c p' ih =>
      have hc : ¬ c = '/' := by
        intro hh
        exact hp (by rw [hh]; exact List.mem_cons_self '/' p'
          : '/' ∈ c :: p')
      have hp' : ¬ '/' ∈ p' := fun hh => hp (List.mem_cons_of_mem c hh)
      simp only [List.cons_append, splitOnChar, hc, if_false,
        List.append_eq]
      rw [ih hp']

theorem splitOnChar_joinWith (s : Str) :
    ∀ parts : List Str, parts ≠ [] → (∀ c ∈ parts, ¬ '/' ∈ c) →
      splitOnChar '/' (joinWith (str "/") parts ++ '/' :: s) =
        parts ++ splitOnChar '/' s := by
  intro parts
  induction parts with
  | nil => intro h _; exact absurd rfl h
  | cons x rest ih =>
      intro _ hns
      rcases rest with _ | ⟨y, rest'⟩
      · have h1 : joinWith (str "/") [x] = x := rfl
        rw [h1, splitOnChar_append_sep x s (hns x (List.mem_cons_self x []))]
        rfl
      · have hx : ¬ '/' ∈ x := hns x (List.mem_cons_self x _)
        have hrest : ∀ c ∈ y :: rest', ¬ '/' ∈ c :=
          fun c hc => hns c (List.mem_cons_of_mem x hc)
        rw [joinWith_cons₂ x y rest', List.cons_append, List.append_assoc]
        have h2 : (('/' : Char) :: joinWith (str "/") (y :: rest')) ++
            '/' :: s = '/' :: (joinWith (str "/") (y :: rest') ++
              '/' :: s) := rfl
        rw [h2, splitOnChar_append_sep x _ hx, ih (by simp) hrest]

theorem cleanStack_goods (l : List Str) :
    ∀ (parts : List Str), (∀ c ∈ parts, goodComp c) →
      ∀ acc, cleanStack true (parts ++ l) acc =
        cleanStack true l (parts.reverse ++ acc) := by
  intro parts
  induction parts with
  | nil => intro _ acc; rfl
  | cons c parts' ih =>
      intro hg acc
      obtain ⟨h1, h2, h3, _⟩ := hg c (List.mem_cons_self c parts')
      have hg' : ∀ x ∈ parts', goodComp x :=
        fun x hx => hg x (List.mem_cons_of_mem c hx)
      simp only [List.cons_append, cleanStack]
      rw [if_neg (by simp [h1, h2]), if_neg h3]
      simp only [List.append_eq]
      rw [ih hg' (c :: acc)]
      rw [List.reverse_cons, List.append_assoc]
      rfl

theorem isPre_append_same :
    ∀ (w s1 s2 : Str), isPre (w ++ s1) (w ++ s2) = isPre s1 s2 := by
  intro w
  induction w with
  | nil => intro s1 s2; rfl
  | cons c w' ih =>
      intro s1 s2
      simp only [List.cons_append, isPre, decide_True, Bool.true_and]
      exact ih s1 s2

theorem isPre_append_sep_false :
    ∀ (a s : Str), ¬ '/' ∈ s → isPre (a ++ ['/']) s = false := by
  intro a
  induction a with
  | nil =>
      intro s hs
      rcases s with _ | ⟨c, s'⟩
      · rfl
      · have hc : ¬ ('/' : Char) = c := by
          intro hh
          exact hs (by rw [← hh]; exact List.mem_cons_self '/' s')
        simp only [List.nil_append, isPre, Bool.and_eq_true]
        simp [hc]
  | cons x a' ih =>
      intro s hs
      rcases s with _ | ⟨y, s'⟩
      · rfl
      · have hs' : ¬ '/' ∈ s' := fun hh => hs (List.mem_cons_of_mem y hh)
        simp only [List.cons_append, isPre, List.append_eq]
        rw [ih s' hs']
        simp

theorem joinWith_concat (x : Str) :
    ∀ (q : List Str), q ≠ [] →
      joinWith (str "/") (q ++ [x]) =
        joinWith (str "/") q ++ '/' :: x := by
  intro q
  induction q with
  | nil => intro h; exact absurd rfl h
  | cons w ws ih =>
      intro _
      rcases ws with _ | ⟨y, ws'⟩
      · exact joinWith_cons₂ w x []
      · have ih' := ih (by simp)
        simp only [List.cons_append] at ih' ⊢
        rw [joinWith_cons₂ w y (ws' ++ [x]), ih',
          joinWith_cons₂ w y ws', List.append_assoc]
        rfl

theorem beq_false_of_ne (a b : Str) (h : ¬ a = b) : (a == b) = false := by
  rcases hx : (a == b) with _ | _
  · rfl
  · exact absurd (eq_of_beq hx) h

theorem renderAbs_ne (q : List Str) (a b : Str) (h : ¬ b = a) :
    ¬ renderAbs (q ++ [b]) = renderAbs (q ++ [a]) := by
  intro he
  unfold renderAbs at he
  injection he with _ h2
  rcases q with _ | ⟨w, ws⟩
  · simp only [List.nil_append] at h2
    have hb : joinWith (str "/") [b] = b := rfl
    have haa : joinWith (str "/") [a] = a := rfl
    rw [hb, haa] at h2
    exact h h2
  · rw [joinWith_concat b (w :: ws) (by simp),
      joinWith_concat a (w :: ws) (by simp)] at h2
    have h3 := List.append_cancel_left h2
    injection h3 with _ h4
    exact h h4

theorem joinPath_dotdot (q : List Str) (a : Str)
    (hgq : ∀ c ∈ q, goodComp c) (hga : goodComp a) :
    joinPath (renderAbs (q ++ [a])) (str "../x.md") =
      renderAbs (q ++ [str "x.md"]) := by
  unfold joinPath
  rw [if_neg (by simp [renderAbs]), if_neg (by simp [renderAbs]),
    if_neg (by decide)]
  unfold clean
  rw [if_neg (by simp [renderAbs])]
  have habs : isAbsPath (renderAbs (q ++ [a]) ++ '/' :: str "../x.md") =
      true := rfl
  rw [habs]
  have hsplit : splitOnChar '/'
      (renderAbs (q ++ [a]) ++ '/' :: str "../x.md") =
      [] :: ((q ++ [a]) ++ splitOnChar '/' (str "../x.md")) := by
    have hr : renderAbs (q ++ [a]) ++ '/' :: str "../x.md" =
        '/' :: (joinWith (str "/") (q ++ [a]) ++ '/' :: str "../x.md") :=
      rfl
    rw [hr]
    have hstep : splitOnChar '/'
        ('/' :: (joinWith (str "/") (q ++ [a]) ++ '/' :: str "../x.md")) =
        [] :: splitOnChar '/'
          (joinWith (str "/") (q ++ [a]) ++ '/' :: str "../x.md") := by
      simp [splitOnChar]
    rw [hstep, splitOnChar_joinWith (str "../x.md") (q ++ [a]) (by simp)
      (by
        intro c hc
        rcases List.mem_append.mp hc with hc' | hc'
        · exact (hgq c hc').2.2.2
        · rcases List.mem_singleton.mp hc' with rfl
          exact hga.2.2.2)]
  rw [hsplit]
  have hsp2 : splitOnChar '/' (str "../x.md") =
      [str "..", str "x.md"] := by decide
  rw [hsp2]
  have hck : cleanStack true
      ([] :: ((q ++ [a]) ++ [str "..", str "x.md"])) [] =
      str "x.md" :: q.reverse := by
    have h0 : cleanStack true
        ([] :: ((q ++ [a]) ++ [str "..", str "x.md"])) [] =
        cleanStack true ((q ++ [a]) ++ [str "..", str "x.md"]) [] := by
      simp [cleanStack]
    rw [h0, cleanStack_goods [str "..", str "x.md"] (q ++ [a])
      (by
        intro c hc
        rcases List.mem_append.mp hc with hc' | hc'
        · exact hgq c hc'
        · rcases List.mem_singleton.mp hc' with rfl
          exact hga)]
    have hrev : (q ++ [a]).reverse ++ ([] : List Str) = a :: q.reverse := by
      simp
    rw [hrev]
    have hdd : cleanStack true [str "..", str "x.md"] (a :: q.reverse) =
        cleanStack true [str "x.md"] q.reverse := by
      simp [cleanStack, hga.2.2.1]
      intro h
      exact absurd h (by decide)
    rw [hdd]
    simp only [cleanStack]
    rw [if_neg (by decide), if_neg (by decide)]
  rw [hck]
  have hrender : renderPath true (str "x.md" :: q.reverse).reverse =
      renderAbs (q ++ [str "x.md"]) := by
    unfold renderPath renderAbs
    rw [if_pos rfl]
    simp
  exact hrender

theorem safePath_dotdot_escape (q : List Str) (a : Str)
    (hgq : ∀ c ∈ q, goodComp c) (hga : goodComp a)
    (ha : ¬ a = str "x.md") (rel : Str)
    (hclean : clean rel = str "../x.md") (hne : ¬ rel = []) :
    safePath (renderAbs (q ++ [a])) rel = .error .escape := by
  unfold safePath
  rw [if_neg hne, hclean]
  rw [if_neg (by decide)]
  rw [joinPath_dotdot q a hgq hga]
  have hpre : isPre (renderAbs (q ++ [a]) ++ ['/'])
      (renderAbs (q ++ [str "x.md"])) = false := by
    have hu : renderAbs (q ++ [a]) ++ ['/'] =
        '/' :: (joinWith (str "/") (q ++ [a]) ++ ['/']) := rfl
    have hv : renderAbs (q ++ [str "x.md"]) =
        '/' :: joinWith (str "/") (q ++ [str "x.md"]) := rfl
    rw [hu, hv]
    have hred : isPre
        ('/' :: (joinWith (str "/") (q ++ [a]) ++ ['/']))
        ('/' :: joinWith (str "/") (q ++ [str "x.md"])) =
        isPre (joinWith (str "/") (q ++ [a]) ++ ['/'])
          (joinWith (str "/") (q ++ [str "x.md"])) := by
      simp [isPre]
    rw [hred]
    rcases q with _ | ⟨w, ws⟩
    · have h1 : joinWith (str "/") ([] ++ [a]) = a := rfl
      have h2 : joinWith (str "/") ([] ++ [str "x.md"]) = str "x.md" := rfl
      rw [h1, h2]
      exact isPre_append_sep_false a (str "x.md") (by decide)
    · rw [joinWith_concat a (w :: ws) (by simp),
        joinWith_concat (str "x.md") (w :: ws) (by simp)]
      have hassoc : (joinWith (str "/") (w :: ws) ++ '/' :: a) ++ ['/'] =
          joinWith (str "/") (w :: ws) ++ ('/' :: (a ++ ['/'])) := by
        simp
      rw [hassoc]
      have hx : joinWith (str "/") (w :: ws) ++ '/' :: str "x.md" =
          joinWith (str "/") (w :: ws) ++ ('/' :: str "x.md") := rfl
      rw [hx, isPre_append_same]
      have hred2 : isPre ('/' :: (a ++ ['/'])) ('/' :: str "x.md") =
          isPre (a ++ ['/']) (str "x.md") := by
        simp [isPre]
      rw [hred2]
      exact isPre_append_sep_false a (str "x.md") (by decide)
  have hne2 : (renderAbs (q ++ [str "x.md"]) == renderAbs (q ++ [a])) =
      false :=
    beq_false_of_ne _ _ (renderAbs_ne q a (str "x.md")
      (fun hh => ha hh.symm))
  rw [if_neg (by
    rw [hpre, hne2]
    simp)]

theorem safePath_absolute_input (root : Str) :
    safePath root (str "/etc/passwd") = .error .absolute := by
  unfold safePath
  rw [if_neg (by decide)]
  rw [if_pos (by decide)]

/-- C4: for every vault root `/c1/.../cn/a` made of well-formed path
components (the root's final component not itself named `x.md`), and for
every input path among `../x.md`, `/etc/passwd`, `a/../../x.md` and
`./sub/../../x.md`, each of the vault operations Read, Write, Delete and
Move (with that path as either argument) returns a path-validation error
(`escape` for the traversals, `absolute` for `/etc/passwd`), the file map
is unchanged, and the operation performs no filesystem effect at all — in
particular no file outside the vault root is created, read, or removed. -/
theorem C4_traversal_rejected (q : List Str) (a : Str)
    (hgq : ∀ c ∈ q, goodComp c) (hga : goodComp a)
    (ha : ¬ a = str "x.md") (rel : Str)
    (hrel : rel ∈ [str "../x.md", str "/etc/passwd",
      str "a/../../x.md", str "./sub/../../x.md"]) :
    ∀ (fs : FileSys) (content other : Str),
      (∃ e, fsRead (renderAbs (q ++ [a])) fs rel = (.error e, [])) ∧
      (∃ e, fsWrite (renderAbs (q ++ [a])) fs rel content =
        (.error e, fs, [])) ∧
      (∃ e, fsDelete (renderAbs (q ++ [a])) fs rel =
        (.error e, fs, [])) ∧
      (∃ e, fsMove (renderAbs (q ++ [a])) fs rel other =
        (.error (.path e), fs, [])) ∧
      (∃ e, fsMove (renderAbs (q ++ [a])) fs other rel =
        (.error e, fs, [])) := by
  intro fs content other
  have hsp : ∃ e, safePath (renderAbs (q ++ [a])) rel = .error e := by
    simp only [List.mem_cons, List.mem_singleton, List.not_mem_nil,
      or_false] at hrel
    rcases hrel with h | h | h | h
    · subst h
      exact ⟨.escape,
        safePath_dotdot_escape q a hgq hga ha _ (by decide) (by decide)⟩
    · subst h
      exact ⟨.absolute, safePath_absolute_input _⟩
    · subst h
      exact ⟨.escape,
        safePath_dotdot_escape q a hgq hga ha _ (by decide) (by decide)⟩
    · subst h
      exact ⟨.escape,
        safePath_dotdot_escape q a hgq hga ha _ (by decide) (by decide)⟩
  obtain ⟨e, he⟩ := hsp
  refine ⟨⟨e, ?_⟩, ⟨e, ?_⟩, ⟨e, ?_⟩, ⟨e, ?_⟩, ?_⟩
  · simp [fsRead, he]
  · simp [fsWrite, he]
  · simp [fsDelete, he]
  · simp [fsMove, he]
  · rcases ho : safePath (renderAbs (q ++ [a])) other with e' | abs
    · exact ⟨.path e', by simp [fsMove, ho]⟩
    · exact ⟨.path e, by simp [fsMove, ho, he]⟩

theorem C4_traversal_rejected_witness :
    (∃ e, fsRead (renderAbs ([] ++ [str "vault"])) ⟨[]⟩
      (str "../x.md") = (.error e, [])) ∧
    (∃ e, fsWrite (renderAbs ([] ++ [str "vault"])) ⟨[]⟩
      (str "../x.md") [] = (.error e, ⟨[]⟩, [])) ∧
    (∃ e, fsDelete (renderAbs ([] ++ [str "vault"])) ⟨[]⟩
      (str "../x.md") = (.error e, ⟨[]⟩, [])) ∧
    (∃ e, fsMove (renderAbs ([] ++ [str "vault"])) ⟨[]⟩
      (str "../x.md") [] = (.error (.path e), ⟨[]⟩, [])) ∧
    (∃ e, fsMove (renderAbs ([] ++ [str "vault"])) ⟨[]⟩
      [] (str "../x.md") = (.error e, ⟨[]⟩, [])) :=
  C4_traversal_rejected [] (str "vault") (by simp) (by decide)
    (by decide) (str "../x.md") (List.mem_cons_self _ _) ⟨[]⟩ [] []

end Kenaz
